import Mathlib

/-!
Verification of the ai_wargame core (src/ai_wargame.py) against its
specification.  The Python source is shallowly embedded: the mutable
`Game` dataclass becomes an immutable structure that methods return
updated copies of, Python `int` becomes `Int`, `None`-able cells become
`Option`, generators become `List`, and the wall clock consulted by the
search's time-out checks becomes an explicit oracle `Nat → Bool` (the
n-th clock read answers whether elapsed time has reached the adjusted
budget).  The textual action descriptions built by `perform_move` are
modelled by the structured `ActionKind` tag; the floating-point running
statistics are modelled by recording the exact list of integer
arguments passed to `update_average_branching`.
-/

set_option maxHeartbeats 1600000
set_option maxRecDepth 100000

namespace AiWargame

/-- `MAX_HEURISTIC_SCORE` from the source. -/
def MAX_HEURISTIC_SCORE : Int := 2000000000

/-- `MIN_HEURISTIC_SCORE` from the source. -/
def MIN_HEURISTIC_SCORE : Int := -2000000000

/-- `UnitType` enum from the source. -/
inductive UnitType
  | AI
  | Tech
  | Virus
  | Program
  | Firewall
deriving DecidableEq

/-- `Player` enum from the source. -/
inductive Player
  | Attacker
  | Defender
deriving DecidableEq

/-- `Player.next` from the source. -/
def Player.next : Player → Player
  | .Attacker => .Defender
  | .Defender => .Attacker

/-- The `Unit` dataclass from the source (health is a Python int). -/
structure Unit where
  player : Player
  type : UnitType
  health : Int
deriving DecidableEq

/-- `Unit.damage_table`, indexed by (actor type, target type). -/
def damage_table : UnitType → UnitType → Int
  | .AI, .AI => 3 | .AI, .Tech => 3 | .AI, .Virus => 3 | .AI, .Program => 3 | .AI, .Firewall => 1
  | .Tech, .AI => 1 | .Tech, .Tech => 1 | .Tech, .Virus => 6 | .Tech, .Program => 1 | .Tech, .Firewall => 1
  | .Virus, .AI => 9 | .Virus, .Tech => 6 | .Virus, .Virus => 1 | .Virus, .Program => 6 | .Virus, .Firewall => 1
  | .Program, .AI => 3 | .Program, .Tech => 3 | .Program, .Virus => 3 | .Program, .Program => 3 | .Program, .Firewall => 1
  | .Firewall, _ => 1

/-- `Unit.repair_table`, indexed by (actor type, target type). -/
def repair_table : UnitType → UnitType → Int
  | .AI, .Tech => 1
  | .AI, .Virus => 1
  | .Tech, .AI => 3
  | .Tech, .Program => 3
  | .Tech, .Firewall => 3
  | _, _ => 0

/-- `Unit.is_alive` from the source. -/
def Unit.is_alive (u : Unit) : Bool :=
  decide (u.health > 0)

/-- `Unit.mod_health` from the source: add the delta, clamp to [0,9]. -/
def Unit.mod_health (u : Unit) (health_delta : Int) : Unit :=
  let h := u.health + health_delta
  { u with health := if h < 0 then 0 else if h > 9 then 9 else h }

/-- `Unit.damage_amount` from the source. -/
def Unit.damage_amount (self target : Unit) : Int :=
  let amount := damage_table self.type target.type
  if target.health - amount < 0 then target.health else amount

/-- `Unit.repair_amount` from the source. -/
def Unit.repair_amount (self target : Unit) : Int :=
  let amount := repair_table self.type target.type
  if target.health + amount > 9 then 9 - target.health else amount

/-- The `Coord` dataclass from the source. -/
structure Coord where
  row : Int
  col : Int
deriving DecidableEq

/-- The list `[start, start+1, ..., start+len-1]` of integers
(a Python `range` whose length is known to be `len`). -/
def intRange (start : Int) (len : Nat) : List Int :=
  (List.range len).map (fun i => start + i)

/-- `Coord.iter_adjacent` from the source: up, left, down, right. -/
def Coord.iter_adjacent (c : Coord) : List Coord :=
  [⟨c.row - 1, c.col⟩, ⟨c.row, c.col - 1⟩, ⟨c.row + 1, c.col⟩, ⟨c.row, c.col + 1⟩]

/-- `Coord.iter_range` from the source: the square of cells within
Chebyshev distance `dist`, in row-major order. -/
def Coord.iter_range (c : Coord) (dist : Nat) : List Coord :=
  ((intRange (c.row - dist) (2 * dist + 1)).map (fun r =>
    (intRange (c.col - dist) (2 * dist + 1)).map (fun cl => Coord.mk r cl))).flatten

/-- The `CoordPair` dataclass from the source. -/
structure CoordPair where
  src : Coord
  dst : Coord
deriving DecidableEq

/-- `CoordPair.iter_rectangle` from the source. -/
def CoordPair.iter_rectangle (cp : CoordPair) : List Coord :=
  ((intRange cp.src.row (cp.dst.row + 1 - cp.src.row).toNat).map (fun r =>
    (intRange cp.src.col (cp.dst.col + 1 - cp.src.col).toNat).map (fun cl => Coord.mk r cl))).flatten

/-- `CoordPair.from_dim` from the source. -/
def CoordPair.from_dim (dim : Int) : CoordPair :=
  ⟨⟨0, 0⟩, ⟨dim - 1, dim - 1⟩⟩

/-- The `Options` dataclass from the source, restricted to the fields the
core game/search logic reads (`max_time` and its adjustment are
modelled by the time-out oracle; game type, broker and randomize flags
belong to the excluded I/O drivers). -/
structure Options where
  dim : Int
  max_depth : Nat
  max_turns : Option Int
  heuristic : Int
deriving DecidableEq

/-- The `Game` dataclass from the source: the board grid, side to move,
turn counter, options, and the two has-AI flags (Python
`_attacker_has_ai` / `_defender_has_ai`).  The mutable statistics and
time-out bookkeeping are modelled explicitly by the instrumented search
functions below. -/
structure Game where
  board : List (List (Option Unit))
  next_player : Player
  turns_played : Int
  options : Options
  attacker_has_ai : Bool
  defender_has_ai : Bool
deriving DecidableEq

/-- `Game.is_valid_coord` from the source. -/
def Game.is_valid_coord (g : Game) (c : Coord) : Bool :=
  if c.row < 0 ∨ c.row ≥ g.options.dim ∨ c.col < 0 ∨ c.col ≥ g.options.dim then false else true

/-- `Game.get` from the source: contents of a cell, `none` when out of range. -/
def Game.get (g : Game) (c : Coord) : Option Unit :=
  if g.is_valid_coord c then (g.board.getD c.row.toNat []).getD c.col.toNat none else none

/-- `Game.set` from the source: write a cell when the coordinate is valid. -/
def Game.set (g : Game) (c : Coord) (u : Option Unit) : Game :=
  if g.is_valid_coord c then
    { g with board := g.board.set c.row.toNat ((g.board.getD c.row.toNat []).set c.col.toNat u) }
  else g

/-- `Game.remove_dead` from the source: delete a dead unit and clear the
corresponding has-AI flag when an AI dies. -/
def Game.remove_dead (g : Game) (c : Coord) : Game :=
  match g.get c with
  | none => g
  | some u =>
    if ¬ u.is_alive then
      let g1 := g.set c none
      if u.type = .AI then
        if u.player = .Attacker then { g1 with attacker_has_ai := false }
        else { g1 with defender_has_ai := false }
      else g1
    else g

/-- `Game.mod_health` from the source: clamp-adjust a unit's health in
place, then remove it if dead. -/
def Game.mod_health (g : Game) (c : Coord) (health_delta : Int) : Game :=
  match g.get c with
  | none => g
  | some u => (g.set c (some (u.mod_health health_delta))).remove_dead c

/-- The combat-locked / direction-restricted unit types
(the Python set `{UnitType.AI, UnitType.Firewall, UnitType.Program}`). -/
def UnitType.is_afp : UnitType → Bool
  | .AI => true
  | .Firewall => true
  | .Program => true
  | _ => false

/-- `Game.is_valid_move` from the source. -/
def Game.is_valid_move (g : Game) (coords : CoordPair) : Bool :=
  if ¬ (g.is_valid_coord coords.src ∧ g.is_valid_coord coords.dst) then false
  else
    match g.get coords.src with
    | none => false
    | some u =>
      if u.player ≠ g.next_player then false
      else if (g.get coords.dst).isSome then false
      else if u.player = .Attacker ∧ u.type.is_afp ∧
          (coords.dst.row > coords.src.row ∨ coords.dst.col > coords.src.col) then false
      else if u.player = .Defender ∧ u.type.is_afp ∧
          (coords.dst.row < coords.src.row ∨ coords.dst.col < coords.src.col) then false
      else if (coords.src.iter_adjacent).any (fun a =>
          u.type.is_afp && (match g.get a with
            | some v => decide (v.player ≠ u.player)
            | none => false)) then false
      else (coords.src.iter_adjacent).any (fun a => coords.dst = a)

/-- `Game.is_valid_attack` from the source. -/
def Game.is_valid_attack (g : Game) (coords : CoordPair) : Bool :=
  if ¬ (g.is_valid_coord coords.src ∧ g.is_valid_coord coords.dst) then false
  else
    match g.get coords.src, g.get coords.dst with
    | some us, some ut =>
      if us.player = ut.player then false
      else (coords.src.iter_adjacent).any (fun a => coords.dst = a)
    | _, _ => false

/-- `Game.is_valid_repair` from the source. -/
def Game.is_valid_repair (g : Game) (coords : CoordPair) : Bool :=
  if ¬ (g.is_valid_coord coords.src ∧ g.is_valid_coord coords.dst) then false
  else
    match g.get coords.src, g.get coords.dst with
    | some us, some ut =>
      if us.player ≠ ut.player then false
      else if us.repair_amount ut = 0 then false
      else (coords.src.iter_adjacent).any (fun a => coords.dst = a)
    | _, _ => false

/-- `Game.can_self_destruct` from the source. -/
def Game.can_self_destruct (g : Game) (coords : CoordPair) : Bool :=
  if ¬ (g.is_valid_coord coords.src ∧ g.is_valid_coord coords.dst) then false
  else
    match g.get coords.src with
    | none => false
    | some _ => coords.src = coords.dst

/-- The structured content of the textual action description built by
`perform_move` (player, turn number and coordinates are carried by the
game state and the argument pair). -/
inductive ActionKind
  | move
  | attack
  | repair
  | selfDestruct
  | invalid
deriving DecidableEq

/-- `Game.perform_move` from the source: try move, attack, repair,
self-destruct in that order; on failure return the state unchanged with
a diagnostic tag. -/
def Game.perform_move (g : Game) (coords : CoordPair) : Bool × ActionKind × Game :=
  if g.is_valid_move coords then
    (true, .move, (g.set coords.dst (g.get coords.src)).set coords.src none)
  else if g.is_valid_attack coords then
    match g.get coords.src, g.get coords.dst with
    | some us, some ut =>
      let damage_on_t := us.damage_amount ut
      let damage_on_s := ut.damage_amount us
      (true, .attack, (g.mod_health coords.src (-damage_on_s)).mod_health coords.dst (-damage_on_t))
    | _, _ => (true, .attack, g)
  else if g.is_valid_repair coords then
    match g.get coords.src, g.get coords.dst with
    | some us, some ut => (true, .repair, g.mod_health coords.dst (us.repair_amount ut))
    | _, _ => (true, .repair, g)
  else if g.can_self_destruct coords then
    let g1 := g.mod_health coords.src (-9)
    (true, .selfDestruct, (coords.src.iter_range 1).foldl (fun acc c => acc.mod_health c (-2)) g1)
  else (false, .invalid, g)

/-- `Game.next_turn` from the source. -/
def Game.next_turn (g : Game) : Game :=
  { g with next_player := g.next_player.next, turns_played := g.turns_played + 1 }

/-- `Game.has_winner` from the source. -/
def Game.has_winner (g : Game) : Option Player :=
  if (match g.options.max_turns with
      | some mt => decide (g.turns_played ≥ mt)
      | none => false) then some .Defender
  else if g.attacker_has_ai then
    if g.defender_has_ai then none else some .Attacker
  else some .Defender

/-- `Game.is_finished` from the source. -/
def Game.is_finished (g : Game) : Bool :=
  (g.has_winner).isSome

/-- `Game.player_units` from the source: board-scan order. -/
def Game.player_units (g : Game) (p : Player) : List (Coord × Unit) :=
  ((CoordPair.from_dim g.options.dim).iter_rectangle).filterMap (fun c =>
    match g.get c with
    | some u => if u.player = p then some (c, u) else none
    | none => none)

/-- `Game.get_children` from the source: for each own unit try the four
adjacent destinations then the self move, keeping the successful
`perform_move` results with the turn advanced.  The generator owns a
single mutable `CoordPair` named `move`; the adjacent-move branch
yields `move.clone()`, but the self-move branch yields the shared
`move` object itself (no `.clone()`), which later iterations mutate.
Each yielded action therefore carries the `CoordPair` CONTENT at yield
time plus a flag marking whether the yield passed the shared object
(true for the self-move branch) rather than a fresh clone. -/
def Game.get_children_s (g : Game) : List (Game × CoordPair × Bool) :=
  ((g.player_units g.next_player).map (fun su =>
    (su.1.iter_adjacent).filterMap (fun dst =>
      let mv : CoordPair := ⟨su.1, dst⟩
      let r := g.perform_move mv
      if r.1 then some (r.2.2.next_turn, mv, false) else none)
    ++
    (let mv : CoordPair := ⟨su.1, su.1⟩
     let r := g.perform_move mv
     if r.1 then [(r.2.2.next_turn, mv, true)] else []))).flatten

/-- The contents of the successors yielded by `get_children`: child
state and action content at yield time.  The score computations of the
search depend only on these; the aliasing marker matters only to the
action a search returns and is consumed by the `_s` search functions
below. -/
def Game.get_children (g : Game) : List (Game × CoordPair) :=
  (g.get_children_s).map (fun x => (x.1, x.2.1))

/-- Content of the generator's shared `move` object once the generator
has been run to exhaustion: the last scanned unit's self-move
assignments (`move.src = src`, then `move.dst = src`) are the last
writes, so the object reads as that unit's self pair; with no units at
all it keeps the fresh `CoordPair()` default. -/
def Game.gen_final_move (g : Game) : CoordPair :=
  match (g.player_units g.next_player).getLast? with
  | some su => ⟨su.1, su.1⟩
  | none => ⟨⟨0, 0⟩, ⟨0, 0⟩⟩

/-- Heuristic `e0` from the source: 3 per non-AI unit, 9999 per AI, per side. -/
def e0 (g : Game) : Int :=
  let count_attacker := (g.player_units .Attacker).foldl (fun acc cu =>
    match cu.2.type with
    | .Virus | .Tech | .Firewall | .Program => acc + 3
    | .AI => acc + 9999) 0
  let count_defender := (g.player_units .Defender).foldl (fun acc cu =>
    match cu.2.type with
    | .Virus | .Tech | .Firewall | .Program => acc + 3
    | .AI => acc + 9999) 0
  count_attacker - count_defender

/-- Heuristic `e1` from the source: health-weighted unit counts. -/
def e1 (g : Game) : Int :=
  let count_attacker := (g.player_units .Attacker).foldl (fun acc cu =>
    match cu.2.type with
    | .Virus | .Tech | .Firewall | .Program => acc + 3 * cu.2.health
    | .AI => acc + 999 * cu.2.health) 0
  let count_defender := (g.player_units .Defender).foldl (fun acc cu =>
    match cu.2.type with
    | .Virus | .Tech | .Firewall | .Program => acc + 3 * cu.2.health
    | .AI => acc + 999 * cu.2.health) 0
  count_attacker - count_defender

/-- `helper_e2` from the source: base value per unit plus the danger /
screening / repair adjustments over the unit's Chebyshev-1
neighbourhood.  Note the source compares each neighbour's owner with
`game.next_player`, not with the owner of the unit being scored. -/
def helper_e2 (g : Game) (p : Player) : Int :=
  (g.player_units p).foldl (fun count cu =>
    let base : Int :=
      match cu.2.type with
      | .Firewall | .Program => 3 * cu.2.health
      | .Virus | .Tech => 9 * cu.2.health
      | .AI => 99999 * cu.2.health
    (cu.1.iter_range 1).foldl (fun cnt ca =>
      match g.get ca with
      | none => cnt
      | some ua =>
        if ua.player ≠ g.next_player then
          if ua.damage_amount cu.2 ≥ cu.2.health then
            cnt - (match cu.2.type with
              | .Firewall | .Program => 2 * cu.2.health
              | .Virus | .Tech => 5 * cu.2.health
              | .AI => 9999 * cu.2.health)
          else cnt
        else
          let cnt1 := if cu.2.type = .AI then cnt + 999 else cnt
          let repair := ua.repair_amount cu.2
          if repair > 0 ∧ cu.2.health < 9 then
            cnt1 + (match cu.2.type with
              | .Firewall | .Program => 2 * repair
              | .Virus | .Tech => 5 * repair
              | .AI => 9999 * repair)
          else cnt1) (count + base)) 0

/-- Heuristic `e2` from the source. -/
def e2 (g : Game) : Int :=
  helper_e2 g .Attacker - helper_e2 g .Defender

/-- The heuristic dispatcher `e` from the source: selector 0/1/2 with
fallback to `e0`. -/
def e (g : Game) : Int :=
  if g.options.heuristic = 0 then e0 g
  else if g.options.heuristic = 1 then e1 g
  else if g.options.heuristic = 2 then e2 g
  else e0 g

/-- The game options the `main` driver runs with (it never overrides
`dim`, `max_turns` or the defaults relevant to the core). -/
def default_options : Options :=
  { dim := 5, max_depth := 4, max_turns := some 100, heuristic := 0 }

/-- `Game.__post_init__` from the source: empty `dim × dim` grid, then
the twelve fixed unit placements. -/
def mkInitialGame (opts : Options) : Game :=
  let dim := opts.dim
  let g : Game :=
    { board := List.replicate dim.toNat (List.replicate dim.toNat none)
      next_player := .Attacker
      turns_played := 0
      options := opts
      attacker_has_ai := true
      defender_has_ai := true }
  let md := dim - 1
  ((((((((((((g.set ⟨0, 0⟩ (some ⟨.Defender, .AI, 9⟩)).set
    ⟨1, 0⟩ (some ⟨.Defender, .Tech, 9⟩)).set
    ⟨0, 1⟩ (some ⟨.Defender, .Tech, 9⟩)).set
    ⟨2, 0⟩ (some ⟨.Defender, .Firewall, 9⟩)).set
    ⟨0, 2⟩ (some ⟨.Defender, .Firewall, 9⟩)).set
    ⟨1, 1⟩ (some ⟨.Defender, .Program, 9⟩)).set
    ⟨md, md⟩ (some ⟨.Attacker, .AI, 9⟩)).set
    ⟨md - 1, md⟩ (some ⟨.Attacker, .Virus, 9⟩)).set
    ⟨md, md - 1⟩ (some ⟨.Attacker, .Virus, 9⟩)).set
    ⟨md - 2, md⟩ (some ⟨.Attacker, .Program, 9⟩)).set
    ⟨md, md - 2⟩ (some ⟨.Attacker, .Program, 9⟩)).set
    ⟨md - 1, md - 1⟩ (some ⟨.Attacker, .Firewall, 9⟩))

/-- The initial game state of the default configuration. -/
def initial_game : Game := mkInitialGame default_options

/-- C5: for every game state, `has_winner` returns Defender exactly when
a turn limit is configured and reached (regardless of the board flags)
or the Attacker's AI is dead; Attacker exactly when no limit fired, the
Attacker's AI is alive and the Defender's AI is dead; and no winner
exactly when no limit fired and both AIs are alive. -/
theorem has_winner_characterization (g : Game) :
    (g.has_winner = some Player.Defender ↔
      ((∃ mt, g.options.max_turns = some mt ∧ mt ≤ g.turns_played) ∨
        g.attacker_has_ai = false)) ∧
    (g.has_winner = some Player.Attacker ↔
      ((∀ mt, g.options.max_turns = some mt → g.turns_played < mt) ∧
        g.attacker_has_ai = true ∧ g.defender_has_ai = false)) ∧
    (g.has_winner = none ↔
      ((∀ mt, g.options.max_turns = some mt → g.turns_played < mt) ∧
        g.attacker_has_ai = true ∧ g.defender_has_ai = true)) := by
  rcases hmt : g.options.max_turns with _ | mt
  · have hw : g.has_winner =
        (if g.attacker_has_ai then (if g.defender_has_ai then none else some .Attacker)
          else some .Defender) := by
      unfold Game.has_winner
      simp [hmt]
    cases hA : g.attacker_has_ai <;> cases hD : g.defender_has_ai <;>
      rw [hw] <;> simp_all
  · by_cases hle : g.turns_played ≥ mt
    · have hw : g.has_winner = some Player.Defender := by
        unfold Game.has_winner
        simp [hmt, hle]
      refine ⟨⟨fun _ => Or.inl ⟨mt, rfl, hle⟩, fun _ => hw⟩, ?_, ?_⟩
      · rw [hw]
        constructor
        · intro h
          simp at h
        · rintro ⟨hall, -, -⟩
          exact absurd (hall mt rfl) (by omega)
      · rw [hw]
        constructor
        · intro h
          simp at h
        · rintro ⟨hall, -, -⟩
          exact absurd (hall mt rfl) (by omega)
    · have hw : g.has_winner =
          (if g.attacker_has_ai then (if g.defender_has_ai then none else some .Attacker)
            else some .Defender) := by
        unfold Game.has_winner
        simp [hmt, hle]
      have hnex : ¬ ∃ mt', g.options.max_turns = some mt' ∧ mt' ≤ g.turns_played := by
        rintro ⟨mt', h1, h2⟩
        rw [hmt] at h1
        injection h1 with h1
        omega
      have hlt : ∀ mt', g.options.max_turns = some mt' → g.turns_played < mt' := by
        intro mt' h1
        rw [hmt] at h1
        injection h1 with h1
        omega
      cases hA : g.attacker_has_ai <;> cases hD : g.defender_has_ai <;>
        rw [hw] <;> simp_all

/-- C6: with target health in [0,9], `damage_amount` is the table value
clamped by the target's health, `repair_amount` is the table value
clamped by the missing health, both are non-negative, and applying them
keeps the implied health inside [0,9]. -/
theorem damage_repair_clamp (a t : Unit) (h0 : 0 ≤ t.health) (h9 : t.health ≤ 9) :
    a.damage_amount t = min (damage_table a.type t.type) t.health ∧
    a.repair_amount t = min (repair_table a.type t.type) (9 - t.health) ∧
    0 ≤ a.damage_amount t ∧ 0 ≤ a.repair_amount t ∧
    0 ≤ t.health - a.damage_amount t ∧ t.health + a.repair_amount t ≤ 9 := by
  have hd : 0 ≤ damage_table a.type t.type := by
    cases a.type <;> cases t.type <;> decide
  have hr : 0 ≤ repair_table a.type t.type := by
    cases a.type <;> cases t.type <;> decide
  unfold Unit.damage_amount Unit.repair_amount
  refine ⟨?_, ?_, ?_, ?_, ?_, ?_⟩ <;> dsimp only <;>
    (try rw [min_def]) <;> split_ifs <;> omega

/-- Witness for C6 at a concrete pair of units. -/
theorem damage_repair_clamp_witness :
    (0 ≤ (Unit.mk .Defender .AI 5).health ∧ (Unit.mk .Defender .AI 5).health ≤ 9) ∧
    ((Unit.mk .Attacker .Virus 9).damage_amount (Unit.mk .Defender .AI 5) =
        min (damage_table .Virus .AI) (5 : Int) ∧
      (Unit.mk .Attacker .Virus 9).repair_amount (Unit.mk .Defender .AI 5) =
        min (repair_table .Virus .AI) (9 - (5 : Int)) ∧
      0 ≤ (Unit.mk .Attacker .Virus 9).damage_amount (Unit.mk .Defender .AI 5) ∧
      0 ≤ (Unit.mk .Attacker .Virus 9).repair_amount (Unit.mk .Defender .AI 5) ∧
      0 ≤ (5 : Int) - (Unit.mk .Attacker .Virus 9).damage_amount (Unit.mk .Defender .AI 5) ∧
      (5 : Int) + (Unit.mk .Attacker .Virus 9).repair_amount (Unit.mk .Defender .AI 5) ≤ 9) :=
  ⟨⟨by decide, by decide⟩,
    damage_repair_clamp (Unit.mk .Attacker .Virus 9) (Unit.mk .Defender .AI 5)
      (by decide) (by decide)⟩

/-- `is_valid_coord` tests exactly membership in `[0,dim)²`. -/
theorem is_valid_coord_iff (g : Game) (c : Coord) :
    g.is_valid_coord c = true ↔
      (0 ≤ c.row ∧ c.row < g.options.dim ∧ 0 ≤ c.col ∧ c.col < g.options.dim) := by
  unfold Game.is_valid_coord
  split_ifs with h <;> simp <;> omega

/-- C4: `is_valid_move` holds exactly when both coordinates are on the
board, the source holds a unit of the side to move, the destination is
empty and one of the four orthogonal neighbours of the source, and —
for combat-restricted types (AI, Firewall, Program) — no adjacent cell
holds an enemy unit and the move respects the owner's direction
restriction.  On every other input it returns false. -/
theorem is_valid_move_characterization (g : Game) (cp : CoordPair) :
    g.is_valid_move cp = true ↔
      ((0 ≤ cp.src.row ∧ cp.src.row < g.options.dim ∧
          0 ≤ cp.src.col ∧ cp.src.col < g.options.dim) ∧
        (0 ≤ cp.dst.row ∧ cp.dst.row < g.options.dim ∧
          0 ≤ cp.dst.col ∧ cp.dst.col < g.options.dim) ∧
        ∃ u, g.get cp.src = some u ∧ u.player = g.next_player ∧
          g.get cp.dst = none ∧
          cp.dst ∈ cp.src.iter_adjacent ∧
          (u.type.is_afp = true →
            (∀ a ∈ cp.src.iter_adjacent, ∀ v, g.get a = some v → v.player = u.player) ∧
            (u.player = .Attacker → cp.dst.row ≤ cp.src.row ∧ cp.dst.col ≤ cp.src.col) ∧
            (u.player = .Defender → cp.src.row ≤ cp.dst.row ∧ cp.src.col ≤ cp.dst.col))) := by
  rw [← is_valid_coord_iff g cp.src, ← is_valid_coord_iff g cp.dst]
  unfold Game.is_valid_move
  cases hs : g.is_valid_coord cp.src
  · simp [hs]
  · cases hd : g.is_valid_coord cp.dst
    · simp [hs, hd]
    · simp only [hs, hd, not_true_eq_false, and_self, if_false, true_and,
        and_true, not_and, Bool.true_eq]
      rcases hu : g.get cp.src with _ | u
      · simp [hu]
      · simp only [hu, Option.some.injEq, if_neg, if_pos]
        constructor
        · intro h
          split_ifs at h with hp hocc h1 h2 h3
          · rw [List.any_eq_true] at h
            rcases h with ⟨a, hmem, hda⟩
            rw [decide_eq_true_iff] at hda
            subst hda
            refine ⟨u, rfl, by tauto, ?_, hmem, ?_⟩
            · cases hocc' : g.get cp.dst
              · rfl
              · rw [hocc'] at hocc
                exact absurd rfl hocc
            · intro hafp
              refine ⟨?_, ?_, ?_⟩
              · intro b hbmem v hbv
                by_contra hne
                apply h3
                rw [List.any_eq_true]
                refine ⟨b, hbmem, ?_⟩
                rw [Bool.and_eq_true, hbv]
                exact ⟨hafp, by simpa using hne⟩
              · intro hAtt
                by_contra hdir
                exact h1 ⟨hAtt, hafp, by omega⟩
              · intro hDef
                by_contra hdir
                exact h2 ⟨hDef, hafp, by omega⟩
        · rintro ⟨u', hu', hp', hdn, hadj, himp⟩
          subst hu'
          split_ifs with hp hocc h1 h2 h3
          · exact absurd hp' hp
          · rw [hdn] at hocc
            exact absurd hocc (by simp)
          · rcases h1 with ⟨hAtt, hafp, hdir⟩
            rcases (himp hafp).2.1 hAtt with ⟨hr, hc⟩
            omega
          · rcases h2 with ⟨hDef, hafp, hdir⟩
            rcases (himp hafp).2.2 hDef with ⟨hr, hc⟩
            omega
          · rw [List.any_eq_true] at h3
            rcases h3 with ⟨a, hmem, hcond⟩
            rw [Bool.and_eq_true] at hcond
            rcases hcond with ⟨hafp, hmatch⟩
            rcases hga : g.get a with _ | v
            · rw [hga] at hmatch
              exact absurd hmatch (by simp)
            · rw [hga] at hmatch
              rw [decide_eq_true_iff] at hmatch
              exact hmatch ((himp hafp).1 a hmem v hga)
          · rw [List.any_eq_true]
            exact ⟨cp.dst, hadj, by simp⟩

/-- C9: the attack, repair and self-destruct legality predicates never
consult `next_player` (replacing the side to move leaves them
unchanged); they are characterized purely by board contents —
attack: two adjacent opposing units; repair: two adjacent same-owner
units with non-zero repair amount; self-destruct: an occupied source
with `src = dst`.  Consequently on the (reachable) initial state the
Attacker's `perform_move` succeeds on a pair whose source unit belongs
to the Defender: it detonates the Defender's AI at (0,0). -/
theorem predicates_ignore_side_to_move :
    (∀ (g : Game) (p : Player) (cp : CoordPair),
      Game.is_valid_attack { g with next_player := p } cp = g.is_valid_attack cp) ∧
    (∀ (g : Game) (p : Player) (cp : CoordPair),
      Game.is_valid_repair { g with next_player := p } cp = g.is_valid_repair cp) ∧
    (∀ (g : Game) (p : Player) (cp : CoordPair),
      Game.can_self_destruct { g with next_player := p } cp = g.can_self_destruct cp) ∧
    (∀ (g : Game) (cp : CoordPair), g.is_valid_attack cp = true ↔
      (g.is_valid_coord cp.src = true ∧ g.is_valid_coord cp.dst = true ∧
        ∃ us ut, g.get cp.src = some us ∧ g.get cp.dst = some ut ∧
          us.player ≠ ut.player ∧ cp.dst ∈ cp.src.iter_adjacent)) ∧
    (∀ (g : Game) (cp : CoordPair), g.is_valid_repair cp = true ↔
      (g.is_valid_coord cp.src = true ∧ g.is_valid_coord cp.dst = true ∧
        ∃ us ut, g.get cp.src = some us ∧ g.get cp.dst = some ut ∧
          us.player = ut.player ∧ us.repair_amount ut ≠ 0 ∧
          cp.dst ∈ cp.src.iter_adjacent)) ∧
    (∀ (g : Game) (cp : CoordPair), g.can_self_destruct cp = true ↔
      (g.is_valid_coord cp.src = true ∧ g.is_valid_coord cp.dst = true ∧
        (g.get cp.src).isSome = true ∧ cp.src = cp.dst)) ∧
    ((initial_game.perform_move ⟨⟨0, 0⟩, ⟨0, 0⟩⟩).1 = true ∧
      ∃ u, initial_game.get ⟨0, 0⟩ = some u ∧ u.player ≠ initial_game.next_player) := by
  refine ⟨fun g p cp => rfl, fun g p cp => rfl, fun g p cp => rfl, ?_, ?_, ?_, ?_⟩
  · intro g cp
    unfold Game.is_valid_attack
    cases hs : g.is_valid_coord cp.src <;> cases hd : g.is_valid_coord cp.dst <;>
      simp_all
    rcases hus : g.get cp.src with _ | us <;> rcases hut : g.get cp.dst with _ | ut <;>
      simp_all [List.any_eq_true]
  · intro g cp
    unfold Game.is_valid_repair
    cases hs : g.is_valid_coord cp.src <;> cases hd : g.is_valid_coord cp.dst <;>
      simp_all
    rcases hus : g.get cp.src with _ | us <;> rcases hut : g.get cp.dst with _ | ut <;>
      simp_all [List.any_eq_true]
  · intro g cp
    unfold Game.can_self_destruct
    cases hs : g.is_valid_coord cp.src <;> cases hd : g.is_valid_coord cp.dst <;>
      simp_all
    rcases hus : g.get cp.src with _ | us <;> simp_all
  · exact ⟨by decide, ⟨.Defender, .AI, 9⟩, by decide, by decide⟩

/-- C3: `perform_move` applies exactly one interpretation, chosen in
priority order move → attack → repair → self-destruct (witnessed by the
action tag), succeeds exactly when one of the four predicates holds,
and on failure returns a diagnostic tag with the state — in particular
the board grid, the side to move and the turn counter — exactly as
before the call.  As a total function it never raises. -/
theorem perform_move_priority_and_failure (g : Game) (cp : CoordPair) :
    ((g.perform_move cp).1 = true ↔
      (g.is_valid_move cp = true ∨ g.is_valid_attack cp = true ∨
        g.is_valid_repair cp = true ∨ g.can_self_destruct cp = true)) ∧
    ((g.perform_move cp).2.1 = .move ↔ g.is_valid_move cp = true) ∧
    ((g.perform_move cp).2.1 = .attack ↔
      (g.is_valid_move cp = false ∧ g.is_valid_attack cp = true)) ∧
    ((g.perform_move cp).2.1 = .repair ↔
      (g.is_valid_move cp = false ∧ g.is_valid_attack cp = false ∧
        g.is_valid_repair cp = true)) ∧
    ((g.perform_move cp).2.1 = .selfDestruct ↔
      (g.is_valid_move cp = false ∧ g.is_valid_attack cp = false ∧
        g.is_valid_repair cp = false ∧ g.can_self_destruct cp = true)) ∧
    ((g.perform_move cp).1 = false →
      ((g.perform_move cp).2.1 = .invalid ∧ (g.perform_move cp).2.2 = g ∧
        ((g.perform_move cp).2.2).board = g.board ∧
        ((g.perform_move cp).2.2).next_player = g.next_player ∧
        ((g.perform_move cp).2.2).turns_played = g.turns_played)) := by
  unfold Game.perform_move
  split_ifs with h1 h2 h3 h4
  · simp [h1]
  · rcases hus : g.get cp.src with _ | us <;> rcases hut : g.get cp.dst with _ | ut <;>
      simp_all
  · rcases hus : g.get cp.src with _ | us <;> rcases hut : g.get cp.dst with _ | ut <;>
      simp_all
  · simp_all
  · simp_all

/-- Witness for C3: on the initial state, the out-of-range pair
(9,9)→(9,9) fails every interpretation and `perform_move` leaves the
state untouched. -/
theorem perform_move_priority_and_failure_witness :
    ((initial_game.perform_move ⟨⟨9, 9⟩, ⟨9, 9⟩⟩).1 = false) ∧
    ((initial_game.perform_move ⟨⟨9, 9⟩, ⟨9, 9⟩⟩).2.1 = .invalid ∧
      (initial_game.perform_move ⟨⟨9, 9⟩, ⟨9, 9⟩⟩).2.2 = initial_game ∧
      ((initial_game.perform_move ⟨⟨9, 9⟩, ⟨9, 9⟩⟩).2.2).board = initial_game.board ∧
      ((initial_game.perform_move ⟨⟨9, 9⟩, ⟨9, 9⟩⟩).2.2).next_player = initial_game.next_player ∧
      ((initial_game.perform_move ⟨⟨9, 9⟩, ⟨9, 9⟩⟩).2.2).turns_played = initial_game.turns_played) :=
  ⟨by decide,
    (perform_move_priority_and_failure initial_game ⟨⟨9, 9⟩, ⟨9, 9⟩⟩).2.2.2.2.2
      (by decide)⟩

/-- Maximizing successor loop of `Game.minimax` (accumulates the best
score and move over `get_children`), with the recursive evaluation
abstracted as `f`. -/
def mmGoMax (f : Game → Int) :
    List (Game × CoordPair) → Int × Option CoordPair → Int × Option CoordPair
  | [], vm => vm
  | (c, mv) :: rest, vm =>
    let r := f c
    mmGoMax f rest (if r > vm.1 then (r, some mv) else vm)

/-- Minimizing successor loop of `Game.minimax`. -/
def mmGoMin (f : Game → Int) :
    List (Game × CoordPair) → Int × Option CoordPair → Int × Option CoordPair
  | [], vm => vm
  | (c, mv) :: rest, vm =>
    let r := f c
    mmGoMin f rest (if r < vm.1 then (r, some mv) else vm)

/-- `Game.minimax` from the source, restricted to runs in which the
elapsed-time check never reaches the budget (claim C1's side condition);
the statistics updates are modelled separately by `mmU` below. -/
def minimax : Nat → Game → Bool → Int × Option CoordPair
  | 0, g, _ => (e g, none)
  | d + 1, g, maximizing_player =>
    if g.is_finished then (e g, none)
    else if maximizing_player then
      mmGoMax (fun c => (minimax d c false).1) g.get_children (MIN_HEURISTIC_SCORE, none)
    else
      mmGoMin (fun c => (minimax d c true).1) g.get_children (MAX_HEURISTIC_SCORE, none)

/-- Maximizing successor loop of `Game.alpha_beta`: raise the running
value and `alpha`, stop exploring once `beta ≤ alpha`. -/
def abGoMax (f : Game → Int → Int → Int) :
    List (Game × CoordPair) → Int × Option CoordPair → Int → Int → Int × Option CoordPair
  | [], vm, _, _ => vm
  | (c, mv) :: rest, vm, a, b =>
    let r := f c a b
    let vm' := if r > vm.1 then (r, some mv) else vm
    let a' := if vm'.1 > a then vm'.1 else a
    if b ≤ a' then vm' else abGoMax f rest vm' a' b

/-- Minimizing successor loop of `Game.alpha_beta`. -/
def abGoMin (f : Game → Int → Int → Int) :
    List (Game × CoordPair) → Int × Option CoordPair → Int → Int → Int × Option CoordPair
  | [], vm, _, _ => vm
  | (c, mv) :: rest, vm, a, b =>
    let r := f c a b
    let vm' := if r < vm.1 then (r, some mv) else vm
    let b' := if vm'.1 < b then vm'.1 else b
    if b' ≤ a then vm' else abGoMin f rest vm' a b'

/-- `Game.alpha_beta` from the source, restricted to runs in which the
elapsed-time check never reaches the budget; the statistics updates
(and the unbound-counter error of the minimizing branch) are modelled
separately by `abU` below. -/
def alpha_beta : Nat → Game → Int → Int → Bool → Int × Option CoordPair
  | 0, g, _, _, _ => (e g, none)
  | d + 1, g, a, b, maximizingPlayer =>
    if g.is_finished then (e g, none)
    else if maximizingPlayer then
      abGoMax (fun c a' b' => (alpha_beta d c a' b' false).1) g.get_children
        (MIN_HEURISTIC_SCORE, none) a b
    else
      abGoMin (fun c a' b' => (alpha_beta d c a' b' true).1) g.get_children
        (MAX_HEURISTIC_SCORE, none) a b

/-- Score of the maximizing fold, seeded at `s`. -/
def mfold (m : Game → Int) (s : Int) : List (Game × CoordPair) → Int
  | [] => s
  | c :: rest => mfold m (max s (m c.1)) rest

/-- Score of the minimizing fold, seeded at `s`. -/
def nfold (m : Game → Int) (s : Int) : List (Game × CoordPair) → Int
  | [] => s
  | c :: rest => nfold m (min s (m c.1)) rest

theorem mmGoMax_score (f : Game → Int) :
    ∀ (l : List (Game × CoordPair)) (vm : Int × Option CoordPair),
      (mmGoMax f l vm).1 = mfold f vm.1 l := by
  intro l
  induction l with
  | nil => intro vm; rfl
  | cons c rest ih =>
    intro vm
    rcases c with ⟨c, mv⟩
    show (mmGoMax f rest _).1 = mfold f (max vm.1 (f c)) rest
    rw [ih]
    congr 1
    split <;> simp <;> omega

theorem mmGoMin_score (f : Game → Int) :
    ∀ (l : List (Game × CoordPair)) (vm : Int × Option CoordPair),
      (mmGoMin f l vm).1 = nfold f vm.1 l := by
  intro l
  induction l with
  | nil => intro vm; rfl
  | cons c rest ih =>
    intro vm
    rcases c with ⟨c, mv⟩
    show (mmGoMin f rest _).1 = nfold f (min vm.1 (f c)) rest
    rw [ih]
    congr 1
    split <;> simp <;> omega

theorem mfold_ge_seed (m : Game → Int) :
    ∀ (l : List (Game × CoordPair)) (s : Int), s ≤ mfold m s l := by
  intro l
  induction l with
  | nil => intro s; exact le_refl s
  | cons c rest ih =>
    intro s
    calc s ≤ max s (m c.1) := le_max_left _ _
    _ ≤ mfold m (max s (m c.1)) rest := ih _

theorem mfold_mono (m : Game → Int) :
    ∀ (l : List (Game × CoordPair)) (s t : Int), s ≤ t → mfold m s l ≤ mfold m t l := by
  intro l
  induction l with
  | nil => intro s t h; exact h
  | cons c rest ih =>
    intro s t h
    exact ih _ _ (by omega)

theorem mfold_seed_max (m : Game → Int) :
    ∀ (l : List (Game × CoordPair)) (s s' : Int),
      mfold m s' l ≤ max s' (mfold m s l) := by
  intro l
  induction l with
  | nil => intro s s'; exact le_max_left _ _
  | cons c rest ih =>
    intro s s'
    have h1 := ih (max s (m c.1)) (max s' (m c.1))
    have h2 := mfold_ge_seed m rest (max s (m c.1))
    show mfold m (max s' (m c.1)) rest ≤ max s' (mfold m (max s (m c.1)) rest)
    omega

theorem mfold_le_of_forall (m : Game → Int) :
    ∀ (l : List (Game × CoordPair)) (s B : Int),
      (∀ c ∈ l, m c.1 ≤ B) → s ≤ B → mfold m s l ≤ B := by
  intro l
  induction l with
  | nil => intro s B _ h; exact h
  | cons c rest ih =>
    intro s B hall h
    refine ih _ _ (fun x hx => hall x (List.mem_cons_of_mem _ hx)) ?_
    have := hall c (List.mem_cons_self _ _)
    omega

theorem nfold_le_seed (m : Game → Int) :
    ∀ (l : List (Game × CoordPair)) (s : Int), nfold m s l ≤ s := by
  intro l
  induction l with
  | nil => intro s; exact le_refl s
  | cons c rest ih =>
    intro s
    calc nfold m (min s (m c.1)) rest ≤ min s (m c.1) := ih _
    _ ≤ s := min_le_left _ _

theorem nfold_mono (m : Game → Int) :
    ∀ (l : List (Game × CoordPair)) (s t : Int), s ≤ t → nfold m s l ≤ nfold m t l := by
  intro l
  induction l with
  | nil => intro s t h; exact h
  | cons c rest ih =>
    intro s t h
    exact ih _ _ (by omega)

theorem nfold_seed_min (m : Game → Int) :
    ∀ (l : List (Game × CoordPair)) (s s' : Int),
      min s' (nfold m s l) ≤ nfold m s' l := by
  intro l
  induction l with
  | nil => intro s s'; exact min_le_left _ _
  | cons c rest ih =>
    intro s s'
    have h1 := ih (min s (m c.1)) (min s' (m c.1))
    have h2 := nfold_le_seed m rest (min s (m c.1))
    show min s' (nfold m (min s (m c.1)) rest) ≤ nfold m (min s' (m c.1)) rest
    omega

theorem nfold_ge_of_forall (m : Game → Int) :
    ∀ (l : List (Game × CoordPair)) (s B : Int),
      (∀ c ∈ l, B ≤ m c.1) → B ≤ s → B ≤ nfold m s l := by
  intro l
  induction l with
  | nil => intro s B _ h; exact h
  | cons c rest ih =>
    intro s B hall h
    refine ih _ _ (fun x hx => hall x (List.mem_cons_of_mem _ hx)) ?_
    have := hall c (List.mem_cons_self _ _)
    omega

theorem abGoMax_ge_seed (f : Game → Int → Int → Int) :
    ∀ (l : List (Game × CoordPair)) (vm : Int × Option CoordPair) (a b : Int),
      vm.1 ≤ (abGoMax f l vm a b).1 := by
  intro l
  induction l with
  | nil => intro vm a b; exact le_refl _
  | cons c rest ih =>
    intro vm a b
    rcases c with ⟨c, mv⟩
    simp only [abGoMax]
    generalize hvm' : (if f c a b > vm.1 then (f c a b, some mv) else vm) = vm'
    have h2 : vm.1 ≤ vm'.1 := by
      rw [← hvm']
      split <;> simp <;> omega
    generalize (if vm'.1 > a then vm'.1 else a) = a'
    split
    · exact h2
    · exact le_trans h2 (ih _ _ _)

theorem abGoMin_le_seed (f : Game → Int → Int → Int) :
    ∀ (l : List (Game × CoordPair)) (vm : Int × Option CoordPair) (a b : Int),
      (abGoMin f l vm a b).1 ≤ vm.1 := by
  intro l
  induction l with
  | nil => intro vm a b; exact le_refl _
  | cons c rest ih =>
    intro vm a b
    rcases c with ⟨c, mv⟩
    simp only [abGoMin]
    generalize hvm' : (if f c a b < vm.1 then (f c a b, some mv) else vm) = vm'
    have h2 : vm'.1 ≤ vm.1 := by
      rw [← hvm']
      split <;> simp <;> omega
    generalize (if vm'.1 < b then vm'.1 else b) = b'
    split
    · exact h2
    · exact le_trans (ih _ _ _) h2

/-- Knuth–Moore correctness relation for a bounded search value `v`
against the true minimax value `m` under the window `(a, b)`: failing
low gives an upper bound, landing inside the window is exact, failing
high gives a lower bound. -/
def kmOK (v m a b : Int) : Prop :=
  (v ≤ a → m ≤ v) ∧ (a < v → v < b → v = m) ∧ (b ≤ v → v ≤ m)

theorem abGoMax_km (f : Game → Int → Int → Int) (m : Game → Int) (b : Int) :
    ∀ (l : List (Game × CoordPair)),
      (∀ p ∈ l, ∀ a', MIN_HEURISTIC_SCORE ≤ a' → a' < b →
        kmOK (f p.1 a' b) (m p.1) a' b) →
      ∀ (vm : Int × Option CoordPair) (a : Int),
        MIN_HEURISTIC_SCORE ≤ a → a < b → MIN_HEURISTIC_SCORE ≤ vm.1 → vm.1 < b →
        kmOK (abGoMax f l vm (max a vm.1) b).1 (mfold m vm.1 l) a b := by
  intro l
  induction l with
  | nil =>
    intro _ vm a _ _ _ _
    exact ⟨fun _ => le_refl _, fun _ _ => rfl, fun _ => le_refl _⟩
  | cons p rest ih =>
    intro hf vm a ha hab hv hvb
    rcases p with ⟨c, mv⟩
    simp only [abGoMax, mfold]
    have hr : kmOK (f c (max a vm.1) b) (m c) (max a vm.1) b :=
      hf (c, mv) (List.mem_cons_self _ _) _ (by omega) (by omega)
    generalize hrd : f c (max a vm.1) b = r at hr
    generalize hvm' : (if r > vm.1 then (r, some mv) else vm) = vm'
    have hvm'1 : vm'.1 = max vm.1 r := by
      rw [← hvm']
      split <;> simp <;> omega
    have ha' : (if vm'.1 > max a vm.1 then vm'.1 else max a vm.1) = max a vm'.1 := by
      split <;> omega
    rw [ha']
    rcases hr with ⟨hr1, hr2, hr3⟩
    split
    case isTrue hbr =>
      have hbvm : b ≤ vm'.1 := by omega
      have hbr' : b ≤ r := by omega
      have hrm : r ≤ m c := hr3 hbr'
      have hseed := mfold_ge_seed m rest (max vm.1 (m c))
      exact ⟨fun h => absurd h (by omega), fun h1 h2 => absurd h2 (by omega),
        fun _ => by omega⟩
    case isFalse hbr =>
      have hrec := ih (fun p hp => hf p (List.mem_cons_of_mem _ hp)) vm' a ha hab
        (by omega) (by omega)
      rcases hrec with ⟨k1, k2, k3⟩
      have hge := abGoMax_ge_seed f rest vm' (max a vm'.1) b
      by_cases hra : r ≤ max a vm.1
      · have hmc : m c ≤ r := hr1 hra
        have hM1 : mfold m (max vm.1 (m c)) rest ≤ mfold m vm'.1 rest :=
          mfold_mono m rest _ _ (by omega)
        have hM2 : mfold m vm'.1 rest ≤ max vm'.1 (mfold m (max vm.1 (m c)) rest) :=
          mfold_seed_max m rest _ _
        have hM3 : max vm.1 (m c) ≤ mfold m (max vm.1 (m c)) rest :=
          mfold_ge_seed m rest _
        refine ⟨fun h => ?_, fun h1 h2 => ?_, fun h => ?_⟩
        · have := k1 h
          omega
        · have := k2 h1 h2
          omega
        · have := k3 h
          omega
      · have hreq : r = m c := hr2 (by omega) (by omega)
        rw [show max vm.1 (m c) = vm'.1 by omega]
        exact ⟨k1, k2, k3⟩

theorem abGoMin_km (f : Game → Int → Int → Int) (m : Game → Int) (a : Int) :
    ∀ (l : List (Game × CoordPair)),
      (∀ p ∈ l, ∀ b', b' ≤ MAX_HEURISTIC_SCORE → a < b' →
        kmOK (f p.1 a b') (m p.1) a b') →
      ∀ (vm : Int × Option CoordPair) (b : Int),
        b ≤ MAX_HEURISTIC_SCORE → a < b → vm.1 ≤ MAX_HEURISTIC_SCORE → a < vm.1 →
        kmOK (abGoMin f l vm a (min b vm.1)).1 (nfold m vm.1 l) a b := by
  intro l
  induction l with
  | nil =>
    intro _ vm b _ _ _ _
    exact ⟨fun _ => le_refl _, fun _ _ => rfl, fun _ => le_refl _⟩
  | cons p rest ih =>
    intro hf vm b hb hab hv hva
    rcases p with ⟨c, mv⟩
    simp only [abGoMin, nfold]
    have hr : kmOK (f c a (min b vm.1)) (m c) a (min b vm.1) :=
      hf (c, mv) (List.mem_cons_self _ _) _ (by omega) (by omega)
    generalize hrd : f c a (min b vm.1) = r at hr
    generalize hvm' : (if r < vm.1 then (r, some mv) else vm) = vm'
    have hvm'1 : vm'.1 = min vm.1 r := by
      rw [← hvm']
      split <;> simp <;> omega
    have hb' : (if vm'.1 < min b vm.1 then vm'.1 else min b vm.1) = min b vm'.1 := by
      split <;> omega
    rw [hb']
    rcases hr with ⟨hr1, hr2, hr3⟩
    split
    case isTrue har =>
      have havm : vm'.1 ≤ a := by omega
      have har' : r ≤ a := by omega
      have hrm : m c ≤ r := hr1 har'
      have hseed := nfold_le_seed m rest (min vm.1 (m c))
      exact ⟨fun _ => by omega, fun h1 h2 => absurd h1 (by omega),
        fun h => absurd h (by omega)⟩
    case isFalse har =>
      have hrec := ih (fun p hp => hf p (List.mem_cons_of_mem _ hp)) vm' b hb hab
        (by omega) (by omega)
      rcases hrec with ⟨k1, k2, k3⟩
      have hge := abGoMin_le_seed f rest vm' a (min b vm'.1)
      by_cases hrb : min b vm.1 ≤ r
      · have hmc : r ≤ m c := hr3 hrb
        have hM1 : nfold m vm'.1 rest ≤ nfold m (min vm.1 (m c)) rest :=
          nfold_mono m rest _ _ (by omega)
        have hM2 : min vm'.1 (nfold m (min vm.1 (m c)) rest) ≤ nfold m vm'.1 rest :=
          nfold_seed_min m rest _ _
        have hM3 : nfold m (min vm.1 (m c)) rest ≤ min vm.1 (m c) :=
          nfold_le_seed m rest _
        refine ⟨fun h => ?_, fun h1 h2 => ?_, fun h => ?_⟩
        · have := k1 h
          omega
        · have := k2 h1 h2
          omega
        · have := k3 h
          omega
      · have hreq : r = m c := hr2 (by omega) (by omega)
        rw [show min vm.1 (m c) = vm'.1 by omega]
        exact ⟨k1, k2, k3⟩

theorem minimax_false_le_MAX (d : Nat) (c : Game)
    (hc : e c ≤ MAX_HEURISTIC_SCORE) :
    (minimax d c false).1 ≤ MAX_HEURISTIC_SCORE := by
  cases d with
  | zero => exact hc
  | succ d =>
    simp only [minimax, Bool.false_eq_true, if_false]
    split_ifs with hfin
    · exact hc
    · rw [mmGoMin_score]
      exact nfold_le_seed _ _ _

theorem minimax_true_ge_MIN (d : Nat) (c : Game)
    (hc : MIN_HEURISTIC_SCORE ≤ e c) :
    MIN_HEURISTIC_SCORE ≤ (minimax d c true).1 := by
  cases d with
  | zero => exact hc
  | succ d =>
    simp only [minimax, if_pos rfl, if_true]
    split_ifs with hfin
    · exact hc
    · rw [mmGoMax_score]
      exact mfold_ge_seed _ _ _

theorem alpha_beta_km :
    ∀ (d : Nat) (g : Game) (a b : Int) (maxF : Bool),
      MIN_HEURISTIC_SCORE ≤ a → b ≤ MAX_HEURISTIC_SCORE → a < b →
      kmOK (alpha_beta d g a b maxF).1 (minimax d g maxF).1 a b := by
  intro d
  induction d with
  | zero =>
    intro g a b maxF _ _ _
    exact ⟨fun _ => le_refl _, fun _ _ => rfl, fun _ => le_refl _⟩
  | succ d ih =>
    intro g a b maxF ha hb hab
    by_cases hfin : g.is_finished
    · simp only [alpha_beta, minimax, hfin, if_true]
      exact ⟨fun _ => le_refl _, fun _ _ => rfl, fun _ => le_refl _⟩
    · cases maxF
      · simp only [alpha_beta, minimax, hfin, Bool.false_eq_true, if_false]
        rw [mmGoMin_score]
        have h := abGoMin_km (fun c a' b' => (alpha_beta d c a' b' true).1)
          (fun c => (minimax d c true).1) a g.get_children
          (fun p _ b' hb' hab' => ih p.1 a b' true ha hb' hab')
          (MAX_HEURISTIC_SCORE, none) b hb hab (le_refl _) (by omega)
        rw [min_eq_left hb] at h
        exact h
      · simp only [alpha_beta, minimax, if_neg hfin, if_pos rfl, if_true]
        rw [mmGoMax_score]
        have h := abGoMax_km (fun c a' b' => (alpha_beta d c a' b' false).1)
          (fun c => (minimax d c false).1) b g.get_children
          (fun p _ a' ha' hab' => ih p.1 a' b false ha' hb hab')
          (MIN_HEURISTIC_SCORE, none) a ha hab (le_refl _) (by omega)
        rw [max_eq_left ha] at h
        exact h

/-- C1: for every game state, depth and maximizing flag (and hence every
heuristic selector carried by the state's options), `alpha_beta` run on
the full window returns the same best score as plain `minimax`, given
the same deterministic successor ordering from `get_children`; the
returned moves may differ under ties.  The hypothesis asks the root's
successors to evaluate strictly inside the sentinel scores — which
every state of the actual 5×5 game satisfies, the heuristics being
bounded far below 2·10⁹ there — and both functions model runs in which
the elapsed-time check never fires. -/
theorem alpha_beta_minimax_same_score (g : Game) (d : Nat) (maxF : Bool)
    (Hb : ∀ p ∈ g.get_children,
      MIN_HEURISTIC_SCORE < e p.1 ∧ e p.1 < MAX_HEURISTIC_SCORE) :
    (alpha_beta d g MIN_HEURISTIC_SCORE MAX_HEURISTIC_SCORE maxF).1 =
      (minimax d g maxF).1 := by
  have hMM : MIN_HEURISTIC_SCORE < MAX_HEURISTIC_SCORE := by decide
  cases d with
  | zero => rfl
  | succ d =>
    by_cases hfin : g.is_finished
    · simp [alpha_beta, minimax, hfin]
    · have km := alpha_beta_km (d + 1) g MIN_HEURISTIC_SCORE MAX_HEURISTIC_SCORE maxF
        (le_refl _) (le_refl _) hMM
      rcases km with ⟨k1, k2, k3⟩
      cases maxF
      · have hv : (alpha_beta (d + 1) g MIN_HEURISTIC_SCORE MAX_HEURISTIC_SCORE false).1 ≤
            MAX_HEURISTIC_SCORE := by
          simp only [alpha_beta, hfin, Bool.false_eq_true, if_false]
          exact abGoMin_le_seed _ _ _ _ _
        have hm_le : (minimax (d + 1) g false).1 ≤ MAX_HEURISTIC_SCORE := by
          simp only [minimax, hfin, Bool.false_eq_true, if_false]
          rw [mmGoMin_score]
          exact nfold_le_seed _ _ _
        have hm_ge : MIN_HEURISTIC_SCORE ≤ (minimax (d + 1) g false).1 := by
          simp only [minimax, hfin, Bool.false_eq_true, if_false]
          rw [mmGoMin_score]
          exact nfold_ge_of_forall _ _ _ _
            (fun c hc => minimax_true_ge_MIN d c.1 (le_of_lt (Hb c hc).1)) (by decide)
        by_cases hvle : (alpha_beta (d + 1) g MIN_HEURISTIC_SCORE MAX_HEURISTIC_SCORE false).1 ≤
            MIN_HEURISTIC_SCORE
        · have := k1 hvle
          omega
        · by_cases hvge : MAX_HEURISTIC_SCORE ≤
              (alpha_beta (d + 1) g MIN_HEURISTIC_SCORE MAX_HEURISTIC_SCORE false).1
          · have := k3 hvge
            omega
          · exact k2 (by omega) (by omega)
      · have hv : MIN_HEURISTIC_SCORE ≤
            (alpha_beta (d + 1) g MIN_HEURISTIC_SCORE MAX_HEURISTIC_SCORE true).1 := by
          simp only [alpha_beta, hfin, if_true, if_false]
          exact abGoMax_ge_seed _ _ _ _ _
        have hm_ge : MIN_HEURISTIC_SCORE ≤ (minimax (d + 1) g true).1 := by
          simp only [minimax, if_neg hfin, if_pos rfl, if_true]
          rw [mmGoMax_score]
          exact mfold_ge_seed _ _ _
        have hm_le : (minimax (d + 1) g true).1 ≤ MAX_HEURISTIC_SCORE := by
          simp only [minimax, if_neg hfin, if_pos rfl, if_true]
          rw [mmGoMax_score]
          exact mfold_le_of_forall _ _ _ _
            (fun c hc => minimax_false_le_MAX d c.1 (le_of_lt (Hb c hc).2)) (by decide)
        by_cases hvle : (alpha_beta (d + 1) g MIN_HEURISTIC_SCORE MAX_HEURISTIC_SCORE true).1 ≤
            MIN_HEURISTIC_SCORE
        · have := k1 hvle
          omega
        · by_cases hvge : MAX_HEURISTIC_SCORE ≤
              (alpha_beta (d + 1) g MIN_HEURISTIC_SCORE MAX_HEURISTIC_SCORE true).1
          · have := k3 hvge
            omega
          · exact k2 (by omega) (by omega)

/-- Witness for C1 at the initial state and depth 2. -/
theorem alpha_beta_minimax_same_score_witness :
    (∀ p ∈ initial_game.get_children,
      MIN_HEURISTIC_SCORE < e p.1 ∧ e p.1 < MAX_HEURISTIC_SCORE) ∧
    (alpha_beta 2 initial_game MIN_HEURISTIC_SCORE MAX_HEURISTIC_SCORE true).1 =
      (minimax 2 initial_game true).1 :=
  ⟨by decide, alpha_beta_minimax_same_score initial_game 2 true (by decide)⟩

/-- Read a stored best action the way the caller observes the Python
object once the successor loop has stopped consuming the generator: a
cloned action reads as its recorded content, while the shared `move`
object reads as `cell`, its content at that moment. -/
def resolveMove (m : Option (CoordPair × Bool)) (cell : CoordPair) : Option CoordPair :=
  match m with
  | none => none
  | some (mv, sh) => some (if sh then cell else mv)

/-- Maximizing `alpha_beta` successor loop with the generator aliasing
tracked: the running best remembers whether it holds the shared `move`
object; on normal exhaustion the shared object has been mutated to
`cell` (the generator ran to its end), while a pruning break freezes it
at the current child's content. -/
def absGoMax (f : Game → Int → Int → Int) (cell : CoordPair) :
    List (Game × CoordPair × Bool) → Int × Option (CoordPair × Bool) → Int → Int →
      Int × Option CoordPair
  | [], vm, _, _ => (vm.1, resolveMove vm.2 cell)
  | (c, mv, sh) :: rest, vm, a, b =>
    let r := f c a b
    let vm' := if r > vm.1 then (r, some (mv, sh)) else vm
    let a' := if vm'.1 > a then vm'.1 else a
    if b ≤ a' then (vm'.1, resolveMove vm'.2 mv) else absGoMax f cell rest vm' a' b

/-- Minimizing `alpha_beta` successor loop with the generator aliasing
tracked. -/
def absGoMin (f : Game → Int → Int → Int) (cell : CoordPair) :
    List (Game × CoordPair × Bool) → Int × Option (CoordPair × Bool) → Int → Int →
      Int × Option CoordPair
  | [], vm, _, _ => (vm.1, resolveMove vm.2 cell)
  | (c, mv, sh) :: rest, vm, a, b =>
    let r := f c a b
    let vm' := if r < vm.1 then (r, some (mv, sh)) else vm
    let b' := if vm'.1 < b then vm'.1 else b
    if b' ≤ a then (vm'.1, resolveMove vm'.2 mv) else absGoMin f cell rest vm' a b'

/-- `Game.alpha_beta` from the source restricted to runs without a
time-out, with the returned action read through the generator's shared
`move` object (the value the caller actually observes). -/
def alpha_beta_s : Nat → Game → Int → Int → Bool → Int × Option CoordPair
  | 0, g, _, _, _ => (e g, none)
  | d + 1, g, a, b, maximizingPlayer =>
    if g.is_finished then (e g, none)
    else if maximizingPlayer then
      absGoMax (fun c a' b' => (alpha_beta_s d c a' b' false).1) g.gen_final_move
        g.get_children_s (MIN_HEURISTIC_SCORE, none) a b
    else
      absGoMin (fun c a' b' => (alpha_beta_s d c a' b' true).1) g.gen_final_move
        g.get_children_s (MAX_HEURISTIC_SCORE, none) a b

/-- Maximizing `minimax` successor loop with the generator aliasing
tracked (no pruning: the loop always exhausts the generator). -/
def mmsGoMax (f : Game → Int) (cell : CoordPair) :
    List (Game × CoordPair × Bool) → Int × Option (CoordPair × Bool) →
      Int × Option CoordPair
  | [], vm => (vm.1, resolveMove vm.2 cell)
  | (c, mv, sh) :: rest, vm =>
    let r := f c
    mmsGoMax f cell rest (if r > vm.1 then (r, some (mv, sh)) else vm)

/-- Minimizing `minimax` successor loop with the generator aliasing
tracked. -/
def mmsGoMin (f : Game → Int) (cell : CoordPair) :
    List (Game × CoordPair × Bool) → Int × Option (CoordPair × Bool) →
      Int × Option CoordPair
  | [], vm => (vm.1, resolveMove vm.2 cell)
  | (c, mv, sh) :: rest, vm =>
    let r := f c
    mmsGoMin f cell rest (if r < vm.1 then (r, some (mv, sh)) else vm)

/-- `Game.minimax` from the source restricted to runs without a
time-out, with the returned action read through the generator's shared
`move` object. -/
def minimax_s : Nat → Game → Bool → Int × Option CoordPair
  | 0, g, _ => (e g, none)
  | d + 1, g, maximizing_player =>
    if g.is_finished then (e g, none)
    else if maximizing_player then
      mmsGoMax (fun c => (minimax_s d c false).1) g.gen_final_move
        g.get_children_s (MIN_HEURISTIC_SCORE, none)
    else
      mmsGoMin (fun c => (minimax_s d c true).1) g.gen_final_move
        g.get_children_s (MAX_HEURISTIC_SCORE, none)

theorem absGoMax_score (fS fV : Game → Int → Int → Int) (cell : CoordPair)
    (hfv : ∀ c a' b', fS c a' b' = fV c a' b') :
    ∀ (l : List (Game × CoordPair × Bool)) (vmS : Int × Option (CoordPair × Bool))
      (vmV : Int × Option CoordPair) (a b : Int), vmS.1 = vmV.1 →
      (absGoMax fS cell l vmS a b).1 =
        (abGoMax fV (l.map (fun x => (x.1, x.2.1))) vmV a b).1 := by
  intro l
  induction l with
  | nil =>
    intro vmS vmV a b hvm
    simpa [absGoMax, abGoMax] using hvm
  | cons p rest ih =>
    rcases p with ⟨c, mv, sh⟩
    intro vmS vmV a b hvm
    simp only [absGoMax, abGoMax, List.map_cons]
    rw [hfv c a b]
    have hvm' : (if fV c a b > vmS.1 then (fV c a b, some (mv, sh)) else vmS).1 =
        (if fV c a b > vmV.1 then (fV c a b, some mv) else vmV).1 := by
      rw [hvm]
      split <;> simp [hvm]
    generalize (if fV c a b > vmS.1 then (fV c a b, some (mv, sh)) else vmS) = vmS' at hvm' ⊢
    generalize (if fV c a b > vmV.1 then (fV c a b, some mv) else vmV) = vmV' at hvm' ⊢
    rw [show (if vmS'.1 > a then vmS'.1 else a) = (if vmV'.1 > a then vmV'.1 else a) by
      rw [hvm']]
    generalize (if vmV'.1 > a then vmV'.1 else a) = a'
    by_cases hpr : b ≤ a'
    · rw [if_pos hpr, if_pos hpr]
      exact hvm'
    · rw [if_neg hpr, if_neg hpr]
      exact ih vmS' vmV' a' b hvm'

theorem absGoMin_score (fS fV : Game → Int → Int → Int) (cell : CoordPair)
    (hfv : ∀ c a' b', fS c a' b' = fV c a' b') :
    ∀ (l : List (Game × CoordPair × Bool)) (vmS : Int × Option (CoordPair × Bool))
      (vmV : Int × Option CoordPair) (a b : Int), vmS.1 = vmV.1 →
      (absGoMin fS cell l vmS a b).1 =
        (abGoMin fV (l.map (fun x => (x.1, x.2.1))) vmV a b).1 := by
  intro l
  induction l with
  | nil =>
    intro vmS vmV a b hvm
    simpa [absGoMin, abGoMin] using hvm
  | cons p rest ih =>
    rcases p with ⟨c, mv, sh⟩
    intro vmS vmV a b hvm
    simp only [absGoMin, abGoMin, List.map_cons]
    rw [hfv c a b]
    have hvm' : (if fV c a b < vmS.1 then (fV c a b, some (mv, sh)) else vmS).1 =
        (if fV c a b < vmV.1 then (fV c a b, some mv) else vmV).1 := by
      rw [hvm]
      split <;> simp [hvm]
    generalize (if fV c a b < vmS.1 then (fV c a b, some (mv, sh)) else vmS) = vmS' at hvm' ⊢
    generalize (if fV c a b < vmV.1 then (fV c a b, some mv) else vmV) = vmV' at hvm' ⊢
    rw [show (if vmS'.1 < b then vmS'.1 else b) = (if vmV'.1 < b then vmV'.1 else b) by
      rw [hvm']]
    generalize (if vmV'.1 < b then vmV'.1 else b) = b'
    by_cases hpr : b' ≤ a
    · rw [if_pos hpr, if_pos hpr]
      exact hvm'
    · rw [if_neg hpr, if_neg hpr]
      exact ih vmS' vmV' a b' hvm'

theorem mmsGoMax_score (fS fV : Game → Int) (cell : CoordPair)
    (hfv : ∀ c, fS c = fV c) :
    ∀ (l : List (Game × CoordPair × Bool)) (vmS : Int × Option (CoordPair × Bool))
      (vmV : Int × Option CoordPair), vmS.1 = vmV.1 →
      (mmsGoMax fS cell l vmS).1 =
        (mmGoMax fV (l.map (fun x => (x.1, x.2.1))) vmV).1 := by
  intro l
  induction l with
  | nil =>
    intro vmS vmV hvm
    simpa [mmsGoMax, mmGoMax] using hvm
  | cons p rest ih =>
    rcases p with ⟨c, mv, sh⟩
    intro vmS vmV hvm
    simp only [mmsGoMax, mmGoMax, List.map_cons]
    rw [hfv c]
    refine ih _ _ ?_
    rw [hvm]
    split <;> simp [hvm]

theorem mmsGoMin_score (fS fV : Game → Int) (cell : CoordPair)
    (hfv : ∀ c, fS c = fV c) :
    ∀ (l : List (Game × CoordPair × Bool)) (vmS : Int × Option (CoordPair × Bool))
      (vmV : Int × Option CoordPair), vmS.1 = vmV.1 →
      (mmsGoMin fS cell l vmS).1 =
        (mmGoMin fV (l.map (fun x => (x.1, x.2.1))) vmV).1 := by
  intro l
  induction l with
  | nil =>
    intro vmS vmV hvm
    simpa [mmsGoMin, mmGoMin] using hvm
  | cons p rest ih =>
    rcases p with ⟨c, mv, sh⟩
    intro vmS vmV hvm
    simp only [mmsGoMin, mmGoMin, List.map_cons]
    rw [hfv c]
    refine ih _ _ ?_
    rw [hvm]
    split <;> simp [hvm]

/-- The generator aliasing never affects the computed score: the
shared-object-aware `alpha_beta_s` scores exactly as the value-level
`alpha_beta`. -/
theorem alpha_beta_s_score :
    ∀ (d : Nat) (g : Game) (a b : Int) (maxF : Bool),
      (alpha_beta_s d g a b maxF).1 = (alpha_beta d g a b maxF).1 := by
  intro d
  induction d with
  | zero => intro g a b maxF; rfl
  | succ d ih =>
    intro g a b maxF
    simp only [alpha_beta_s, alpha_beta]
    by_cases hfin : g.is_finished = true
    · rw [if_pos hfin, if_pos hfin]
    · rw [if_neg hfin, if_neg hfin]
      cases maxF
      · simp only [if_neg (show ¬(false = true) from by simp)]
        exact absGoMin_score _ _ g.gen_final_move
          (fun c a' b' => ih c a' b' true) g.get_children_s _ _ a b rfl
      · simp only [if_pos (show (true = true) from rfl)]
        exact absGoMax_score _ _ g.gen_final_move
          (fun c a' b' => ih c a' b' false) g.get_children_s _ _ a b rfl

/-- The generator aliasing never affects the computed score for
`minimax` either. -/
theorem minimax_s_score :
    ∀ (d : Nat) (g : Game) (maxF : Bool),
      (minimax_s d g maxF).1 = (minimax d g maxF).1 := by
  intro d
  induction d with
  | zero => intro g maxF; rfl
  | succ d ih =>
    intro g maxF
    simp only [minimax_s, minimax]
    by_cases hfin : g.is_finished = true
    · rw [if_pos hfin, if_pos hfin]
    · rw [if_neg hfin, if_neg hfin]
      cases maxF
      · simp only [if_neg (show ¬(false = true) from by simp)]
        exact mmsGoMin_score _ _ g.gen_final_move
          (fun c => ih c true) g.get_children_s _ _ rfl
      · simp only [if_pos (show (true = true) from rfl)]
        exact mmsGoMax_score _ _ g.gen_final_move
          (fun c => ih c false) g.get_children_s _ _ rfl

/-- Maximizing `alpha_beta` loop under the time-out oracle: `f` is the
recursive call on (child, alpha, beta, tick); a raised flag propagates
the child's pair immediately (the source's `return (alpha_beta_result, _)`). -/
def abTGoMax (f : Game → Int → Int → Nat → (Int × Option CoordPair) × Nat × Bool)
    (cell : CoordPair) :
    List (Game × CoordPair × Bool) → Int × Option (CoordPair × Bool) → Int → Int → Nat →
      (Int × Option CoordPair) × Nat × Bool
  | [], vm, _, _, t => ((vm.1, resolveMove vm.2 cell), t, false)
  | (c, mv, sh) :: rest, vm, a, b, t =>
    let res := f c a b t
    if res.2.2 then res
    else
      let vm' := if res.1.1 > vm.1 then (res.1.1, some (mv, sh)) else vm
      let a' := if vm'.1 > a then vm'.1 else a
      if b ≤ a' then ((vm'.1, resolveMove vm'.2 mv), res.2.1, false)
      else abTGoMax f cell rest vm' a' b res.2.1

/-- Minimizing `alpha_beta` loop under the time-out oracle. -/
def abTGoMin (f : Game → Int → Int → Nat → (Int × Option CoordPair) × Nat × Bool)
    (cell : CoordPair) :
    List (Game × CoordPair × Bool) → Int × Option (CoordPair × Bool) → Int → Int → Nat →
      (Int × Option CoordPair) × Nat × Bool
  | [], vm, _, _, t => ((vm.1, resolveMove vm.2 cell), t, false)
  | (c, mv, sh) :: rest, vm, a, b, t =>
    let res := f c a b t
    if res.2.2 then res
    else
      let vm' := if res.1.1 < vm.1 then (res.1.1, some (mv, sh)) else vm
      let b' := if vm'.1 < b then vm'.1 else b
      if b' ≤ a then ((vm'.1, resolveMove vm'.2 mv), res.2.1, false)
      else abTGoMin f cell rest vm' a b' res.2.1

/-- `Game.alpha_beta` from the source with the elapsed-time checks made
explicit: the oracle answers the `t`-th clock read (true when elapsed
time has reached `max_time_adjusted`); every call entry consumes one
read.  Returns the (score, move) pair, the next tick, and the
`is_time_out` flag; a time-out interrupts with `(0, None)`. -/
def abT (or : Nat → Bool) : Nat → Game → Int → Int → Bool → Nat →
    (Int × Option CoordPair) × Nat × Bool
  | 0, g, _, _, _, t =>
    if or t then ((0, none), t + 1, true) else ((e g, none), t + 1, false)
  | d + 1, g, a, b, maximizingPlayer, t =>
    if or t then ((0, none), t + 1, true)
    else if g.is_finished then ((e g, none), t + 1, false)
    else if maximizingPlayer then
      abTGoMax (fun c a' b' t' => abT or d c a' b' false t') g.gen_final_move
        g.get_children_s (MIN_HEURISTIC_SCORE, none) a b (t + 1)
    else
      abTGoMin (fun c a' b' t' => abT or d c a' b' true t') g.gen_final_move
        g.get_children_s (MAX_HEURISTIC_SCORE, none) a b (t + 1)

/-- Maximizing `minimax` loop under the time-out oracle. -/
def mmTGoMax (f : Game → Nat → (Int × Option CoordPair) × Nat × Bool)
    (cell : CoordPair) :
    List (Game × CoordPair × Bool) → Int × Option (CoordPair × Bool) → Nat →
      (Int × Option CoordPair) × Nat × Bool
  | [], vm, t => ((vm.1, resolveMove vm.2 cell), t, false)
  | (c, mv, sh) :: rest, vm, t =>
    let res := f c t
    if res.2.2 then res
    else mmTGoMax f cell rest (if res.1.1 > vm.1 then (res.1.1, some (mv, sh)) else vm) res.2.1

/-- Minimizing `minimax` loop under the time-out oracle. -/
def mmTGoMin (f : Game → Nat → (Int × Option CoordPair) × Nat × Bool)
    (cell : CoordPair) :
    List (Game × CoordPair × Bool) → Int × Option (CoordPair × Bool) → Nat →
      (Int × Option CoordPair) × Nat × Bool
  | [], vm, t => ((vm.1, resolveMove vm.2 cell), t, false)
  | (c, mv, sh) :: rest, vm, t =>
    let res := f c t
    if res.2.2 then res
    else mmTGoMin f cell rest (if res.1.1 < vm.1 then (res.1.1, some (mv, sh)) else vm) res.2.1

/-- `Game.minimax` from the source with the elapsed-time checks made
explicit, as in `abT`. -/
def mmT (or : Nat → Bool) : Nat → Game → Bool → Nat →
    (Int × Option CoordPair) × Nat × Bool
  | 0, g, _, t =>
    if or t then ((0, none), t + 1, true) else ((e g, none), t + 1, false)
  | d + 1, g, maximizing_player, t =>
    if or t then ((0, none), t + 1, true)
    else if g.is_finished then ((e g, none), t + 1, false)
    else if maximizing_player then
      mmTGoMax (fun c t' => mmT or d c false t') g.gen_final_move
        g.get_children_s (MIN_HEURISTIC_SCORE, none) (t + 1)
    else
      mmTGoMin (fun c t' => mmT or d c true t') g.gen_final_move
        g.get_children_s (MAX_HEURISTIC_SCORE, none) (t + 1)

/-- The iterative-deepening loop shared by `alpha_beta_move` and
`minimax_move`: run depths in order; on a raised flag return the
best-known pair of the previous completed depth — `none` models the
unbound-variable error when no depth ever completed. -/
def moveLoop (S : Nat → Nat → (Int × Option CoordPair) × Nat × Bool) :
    List Nat → Option (Int × Option CoordPair) → Nat →
      Option ((Int × Option CoordPair) × Nat)
  | [], best, t =>
    match best with
    | none => none
    | some p => some (p, t)
  | d :: rest, best, t =>
    let res := S d t
    if res.2.2 then
      match best with
      | none => none
      | some p => some (p, res.2.1)
    else moveLoop S rest (some res.1) res.2.1

/-- `Game.alpha_beta_move` from the source: iterative deepening over
depths `1..max_depth` with the full window. -/
def alpha_beta_move (or : Nat → Bool) (g : Game) :
    Option ((Int × Option CoordPair) × Nat) :=
  moveLoop (fun d t =>
      abT or d g MIN_HEURISTIC_SCORE MAX_HEURISTIC_SCORE
        (decide (g.next_player = .Attacker)) t)
    (List.range' 1 g.options.max_depth) none 0

/-- `Game.minimax_move` from the source. -/
def minimax_move (or : Nat → Bool) (g : Game) :
    Option ((Int × Option CoordPair) × Nat) :=
  moveLoop (fun d t => mmT or d g (decide (g.next_player = .Attacker)) t)
    (List.range' 1 g.options.max_depth) none 0

/-- The depth-indexed results of the maximal prefix of fully completed
depth iterations (the loop stops at the first raised flag). -/
def completedRuns (S : Nat → Nat → (Int × Option CoordPair) × Nat × Bool) :
    List Nat → Nat → List (Nat × (Int × Option CoordPair))
  | [], _ => []
  | d :: rest, t =>
    let res := S d t
    if res.2.2 then [] else (d, res.1) :: completedRuns S rest res.2.1

theorem abTGoMax_no_timeout (f : Game → Int → Int → Nat → (Int × Option CoordPair) × Nat × Bool)
    (fp : Game → Int → Int → Int) (cell : CoordPair)
    (hf : ∀ c a' b' t', (f c a' b' t').2.2 = false → (f c a' b' t').1.1 = fp c a' b') :
    ∀ (l : List (Game × CoordPair × Bool)) (vm : Int × Option (CoordPair × Bool))
      (a b : Int) (t : Nat),
      (abTGoMax f cell l vm a b t).2.2 = false →
      (abTGoMax f cell l vm a b t).1 = absGoMax fp cell l vm a b := by
  intro l
  induction l with
  | nil => intro vm a b t _; rfl
  | cons p rest ih =>
    intro vm a b t hok
    rcases p with ⟨c, mv, sh⟩
    have hres : (f c a b t).2.2 = false := by
      by_contra hcon
      rw [Bool.not_eq_false] at hcon
      simp only [abTGoMax] at hok
      rw [if_pos (by simp [hcon])] at hok
      exact absurd hok (by simp [hcon])
    simp only [abTGoMax, absGoMax] at hok ⊢
    rw [if_neg (by simp [hres]), hf c a b t hres] at hok ⊢
    generalize hvm' : (if fp c a b > vm.1 then (fp c a b, some (mv, sh)) else vm) = vm' at hok ⊢
    generalize ha' : (if vm'.1 > a then vm'.1 else a) = a' at hok ⊢
    by_cases hpr : b ≤ a'
    · rw [if_pos hpr, if_pos hpr]
    · rw [if_neg hpr, if_neg hpr]
      apply ih
      rw [if_neg hpr] at hok
      exact hok

theorem abTGoMin_no_timeout (f : Game → Int → Int → Nat → (Int × Option CoordPair) × Nat × Bool)
    (fp : Game → Int → Int → Int) (cell : CoordPair)
    (hf : ∀ c a' b' t', (f c a' b' t').2.2 = false → (f c a' b' t').1.1 = fp c a' b') :
    ∀ (l : List (Game × CoordPair × Bool)) (vm : Int × Option (CoordPair × Bool))
      (a b : Int) (t : Nat),
      (abTGoMin f cell l vm a b t).2.2 = false →
      (abTGoMin f cell l vm a b t).1 = absGoMin fp cell l vm a b := by
  intro l
  induction l with
  | nil => intro vm a b t _; rfl
  | cons p rest ih =>
    intro vm a b t hok
    rcases p with ⟨c, mv, sh⟩
    have hres : (f c a b t).2.2 = false := by
      by_contra hcon
      rw [Bool.not_eq_false] at hcon
      simp only [abTGoMin] at hok
      rw [if_pos (by simp [hcon])] at hok
      exact absurd hok (by simp [hcon])
    simp only [abTGoMin, absGoMin] at hok ⊢
    rw [if_neg (by simp [hres]), hf c a b t hres] at hok ⊢
    generalize hvm' : (if fp c a b < vm.1 then (fp c a b, some (mv, sh)) else vm) = vm' at hok ⊢
    generalize hb' : (if vm'.1 < b then vm'.1 else b) = b' at hok ⊢
    by_cases hpr : b' ≤ a
    · rw [if_pos hpr, if_pos hpr]
    · rw [if_neg hpr, if_neg hpr]
      apply ih
      rw [if_neg hpr] at hok
      exact hok

theorem mmTGoMax_no_timeout (f : Game → Nat → (Int × Option CoordPair) × Nat × Bool)
    (fp : Game → Int) (cell : CoordPair)
    (hf : ∀ c t', (f c t').2.2 = false → (f c t').1.1 = fp c) :
    ∀ (l : List (Game × CoordPair × Bool)) (vm : Int × Option (CoordPair × Bool)) (t : Nat),
      (mmTGoMax f cell l vm t).2.2 = false →
      (mmTGoMax f cell l vm t).1 = mmsGoMax fp cell l vm := by
  intro l
  induction l with
  | nil => intro vm t _; rfl
  | cons p rest ih =>
    intro vm t hok
    rcases p with ⟨c, mv, sh⟩
    have hres : (f c t).2.2 = false := by
      by_contra hcon
      rw [Bool.not_eq_false] at hcon
      simp only [mmTGoMax] at hok
      rw [if_pos (by simp [hcon])] at hok
      exact absurd hok (by simp [hcon])
    simp only [mmTGoMax, mmsGoMax] at hok ⊢
    rw [if_neg (by simp [hres]), hf c t hres] at hok ⊢
    exact ih _ _ hok

theorem mmTGoMin_no_timeout (f : Game → Nat → (Int × Option CoordPair) × Nat × Bool)
    (fp : Game → Int) (cell : CoordPair)
    (hf : ∀ c t', (f c t').2.2 = false → (f c t').1.1 = fp c) :
    ∀ (l : List (Game × CoordPair × Bool)) (vm : Int × Option (CoordPair × Bool)) (t : Nat),
      (mmTGoMin f cell l vm t).2.2 = false →
      (mmTGoMin f cell l vm t).1 = mmsGoMin fp cell l vm := by
  intro l
  induction l with
  | nil => intro vm t _; rfl
  | cons p rest ih =>
    intro vm t hok
    rcases p with ⟨c, mv, sh⟩
    have hres : (f c t).2.2 = false := by
      by_contra hcon
      rw [Bool.not_eq_false] at hcon
      simp only [mmTGoMin] at hok
      rw [if_pos (by simp [hcon])] at hok
      exact absurd hok (by simp [hcon])
    simp only [mmTGoMin, mmsGoMin] at hok ⊢
    rw [if_neg (by simp [hres]), hf c t hres] at hok ⊢
    exact ih _ _ hok

/-- A depth iteration whose flag stays down computes exactly the
no-time-out `alpha_beta_s` pair (the score and the action as read
through the generator's shared object). -/
theorem abT_no_timeout (or : Nat → Bool) :
    ∀ (d : Nat) (g : Game) (a b : Int) (maxF : Bool) (t : Nat),
      (abT or d g a b maxF t).2.2 = false →
      (abT or d g a b maxF t).1 = alpha_beta_s d g a b maxF := by
  intro d
  induction d with
  | zero =>
    intro g a b maxF t hok
    simp only [abT, alpha_beta_s] at hok ⊢
    by_cases htk : or t = true
    · rw [if_pos htk] at hok
      simp at hok
    · rw [if_neg htk]
  | succ d ih =>
    intro g a b maxF t hok
    simp only [abT, alpha_beta_s] at hok ⊢
    by_cases htk : or t = true
    · rw [if_pos htk] at hok
      simp at hok
    · simp only [if_neg htk] at hok ⊢
      by_cases hfin : g.is_finished = true
      · simp only [if_pos hfin] at hok ⊢
      · simp only [if_neg hfin] at hok ⊢
        cases maxF
        · simp only [if_neg (show ¬(false = true) from by simp)] at hok ⊢
          exact abTGoMin_no_timeout _ _ _
            (fun c a' b' t' h => congrArg Prod.fst (ih c a' b' true t' h))
            _ _ _ _ _ hok
        · simp only [if_pos (show (true = true) from rfl)] at hok ⊢
          exact abTGoMax_no_timeout _ _ _
            (fun c a' b' t' h => congrArg Prod.fst (ih c a' b' false t' h))
            _ _ _ _ _ hok

/-- A depth iteration whose flag stays down computes exactly the
no-time-out `minimax_s` pair. -/
theorem mmT_no_timeout (or : Nat → Bool) :
    ∀ (d : Nat) (g : Game) (maxF : Bool) (t : Nat),
      (mmT or d g maxF t).2.2 = false →
      (mmT or d g maxF t).1 = minimax_s d g maxF := by
  intro d
  induction d with
  | zero =>
    intro g maxF t hok
    simp only [mmT, minimax_s] at hok ⊢
    by_cases htk : or t = true
    · rw [if_pos htk] at hok
      simp at hok
    · rw [if_neg htk]
  | succ d ih =>
    intro g maxF t hok
    simp only [mmT, minimax_s] at hok ⊢
    by_cases htk : or t = true
    · rw [if_pos htk] at hok
      simp at hok
    · simp only [if_neg htk] at hok ⊢
      by_cases hfin : g.is_finished = true
      · simp only [if_pos hfin] at hok ⊢
      · simp only [if_neg hfin] at hok ⊢
        cases maxF
        · simp only [if_neg (show ¬(false = true) from by simp)] at hok ⊢
          exact mmTGoMin_no_timeout _ _ _
            (fun c t' h => congrArg Prod.fst (ih c true t' h)) _ _ _ hok
        · simp only [if_pos (show (true = true) from rfl)] at hok ⊢
          exact mmTGoMax_no_timeout _ _ _
            (fun c t' h => congrArg Prod.fst (ih c false t' h)) _ _ _ hok

theorem moveLoop_getLastD (S : Nat → Nat → (Int × Option CoordPair) × Nat × Bool) :
    ∀ (ds : List Nat) (t : Nat) (p0 : Int × Option CoordPair),
      ∃ t', moveLoop S ds (some p0) t =
        some (((completedRuns S ds t).map Prod.snd).getLastD p0, t') := by
  intro ds
  induction ds with
  | nil => intro t p0; exact ⟨t, rfl⟩
  | cons d rest ih =>
    intro t p0
    simp only [moveLoop, completedRuns]
    by_cases hto : (S d t).2.2 = true
    · simp only [if_pos hto]
      exact ⟨(S d t).2.1, rfl⟩
    · simp only [if_neg hto]
      rcases ih (S d t).2.1 (S d t).1 with ⟨t', ht'⟩
      refine ⟨t', ?_⟩
      rw [ht', List.map_cons, List.getLastD_cons]

theorem completedRuns_fst (S : Nat → Nat → (Int × Option CoordPair) × Nat × Bool) :
    ∀ (n s t : Nat), ∃ k, k ≤ n ∧
      (completedRuns S (List.range' s n) t).map Prod.fst = List.range' s k := by
  intro n
  induction n with
  | zero => intro s t; exact ⟨0, le_refl 0, rfl⟩
  | succ n ih =>
    intro s t
    rw [List.range'_succ]
    simp only [completedRuns]
    by_cases hto : (S s t).2.2 = true
    · rw [if_pos hto]
      exact ⟨0, Nat.zero_le _, rfl⟩
    · rw [if_neg hto]
      rcases ih (s + 1) (S s t).2.1 with ⟨k, hk, hmap⟩
      refine ⟨k + 1, by omega, ?_⟩
      rw [List.range'_succ]
      simp [hmap]

theorem completedRuns_sound (S : Nat → Nat → (Int × Option CoordPair) × Nat × Bool)
    (P : Nat → Int × Option CoordPair)
    (hS : ∀ d t, (S d t).2.2 = false → (S d t).1 = P d) :
    ∀ (ds : List Nat) (t : Nat), ∀ x ∈ completedRuns S ds t, x.2 = P x.1 := by
  intro ds
  induction ds with
  | nil => intro t x hx; simp [completedRuns] at hx
  | cons d rest ih =>
    intro t x hx
    simp only [completedRuns] at hx
    by_cases hto : (S d t).2.2 = true
    · rw [if_pos hto] at hx
      simp at hx
    · rw [if_neg hto] at hx
      rcases List.mem_cons.mp hx with h | h
      · subst h
        exact hS d t (by simpa using hto)
      · exact ih _ x h

theorem getLastD_map_snd (L : List (Nat × (Int × Option CoordPair)))
    (P : Nat → Int × Option CoordPair) (q : Int × Option CoordPair)
    (hsnd : ∀ x ∈ L, x.2 = P x.1) (k : Nat)
    (hfst : L.map Prod.fst = List.range' 2 k) (hk : 1 ≤ k) :
    (L.map Prod.snd).getLastD q = P (k + 1) := by
  have hne : L ≠ [] := by
    intro h
    subst h
    rw [List.map_nil] at hfst
    have : (List.range' 2 k).length = 0 := by rw [← hfst]; rfl
    rw [List.length_range'] at this
    omega
  have hlast : L.getLast? = some (L.getLast hne) := List.getLast?_eq_getLast L hne
  have hmem : L.getLast hne ∈ L := List.getLast_mem hne
  have h1 : (L.map Prod.snd).getLastD q = (L.getLast hne).2 := by
    rw [List.getLastD_eq_getLast?, List.getLast?_map, hlast]
    rfl
  have h2 : (L.getLast hne).1 = k + 1 := by
    have hm : (L.map Prod.fst).getLast? = some (L.getLast hne).1 := by
      rw [List.getLast?_map, hlast]
      rfl
    rw [hfst] at hm
    obtain ⟨k', rfl⟩ : ∃ k', k = k' + 1 := ⟨k - 1, by omega⟩
    rw [List.range'_concat] at hm
    rw [List.getLast?_concat] at hm
    injection hm with hm
    omega
  rw [h1, hsnd _ hmem, h2]

/-- The iterative-deepening loop, generically: if the depth-1 iteration
completes, the loop returns the result of the deepest completed depth
`D` (depths `1..D` are exactly the completed prefix), which equals the
pure bounded-depth search value `P D`. -/
theorem moveLoop_deepest (S : Nat → Nat → (Int × Option CoordPair) × Nat × Bool)
    (P : Nat → Int × Option CoordPair)
    (hS : ∀ d t, (S d t).2.2 = false → (S d t).1 = P d)
    (maxd : Nat) (hd : 1 ≤ maxd) (h1 : (S 1 0).2.2 = false) :
    ∃ D t, 1 ≤ D ∧ D ≤ maxd ∧
      (completedRuns S (List.range' 1 maxd) 0).map Prod.fst = List.range' 1 D ∧
      moveLoop S (List.range' 1 maxd) none 0 = some (P D, t) := by
  obtain ⟨m, rfl⟩ : ∃ m, maxd = m + 1 := ⟨maxd - 1, by omega⟩
  rw [List.range'_succ]
  simp only [moveLoop, completedRuns]
  simp only [if_neg (show ¬((S 1 0).2.2 = true) from by simp [h1])]
  rcases moveLoop_getLastD S (List.range' 2 m) (S 1 0).2.1 (S 1 0).1 with ⟨t', ht'⟩
  rcases completedRuns_fst S m 2 (S 1 0).2.1 with ⟨k, hk, hmap⟩
  refine ⟨k + 1, t', by omega, by omega, ?_, ?_⟩
  · simp only [List.map_cons, hmap]
    rw [List.range'_succ]
  · rw [ht']
    rcases Nat.eq_zero_or_pos k with hk0 | hkpos
    · subst hk0
      have hnil : completedRuns S (List.range' 2 m) (S 1 0).2.1 = [] := by
        have := hmap
        rcases hcr : completedRuns S (List.range' 2 m) (S 1 0).2.1 with _ | ⟨y, ys⟩
        · rfl
        · rw [hcr] at hmap
          simp at hmap
      rw [hnil]
      simp only [List.map_nil, List.getLastD_nil]
      rw [hS 1 0 h1]
    · rw [getLastD_map_snd _ P _ (completedRuns_sound S P hS _ _) k hmap hkpos]

/-- A state whose best depth-1 action is the self-destruct of a unit
that is not last in board-scan order: the Attacker's Virus at (0,0)
can kill the weakened Defender AI at (1,1) (diagonal, so unreachable by
an attack) by self-destructing, while the Attacker's own AI at (4,4)
is scanned last.  `max_depth` is 1. -/
def gC2 : Game :=
  { board :=
      [[some ⟨.Attacker, .Virus, 9⟩, none, none, some ⟨.Defender, .Tech, 9⟩, none],
       [none, some ⟨.Defender, .AI, 2⟩, none, none, none],
       [none, none, none, none, none],
       [none, none, none, none, none],
       [none, none, none, none, some ⟨.Attacker, .AI, 9⟩]]
    next_player := .Attacker
    turns_played := 0
    options := { dim := 5, max_depth := 1, max_turns := some 100, heuristic := 0 }
    attacker_has_ai := true
    defender_has_ai := true }

/-- C2 counterexample: on `gC2` with a never-expiring clock both move
functions return score 9996 paired with the action (4,4)→(4,4) — the
last-scanned unit's self-destruct, read from the shared `CoordPair`
object after the generator mutated it — whereas the pure depth-1 search
finds the same best score 9996 at the Virus's winning self-destruct
(0,0)→(0,0).  The returned action differs from the pure search's best
action even though the depth-1 iteration completed, refuting the
claimed (score, move) pair equality with the deepest completed pure
search. -/
theorem iterative_deepening_action_counterexample :
    alpha_beta_move (fun _ => false) gC2 =
      some (((9996 : Int), some ⟨⟨4, 4⟩, ⟨4, 4⟩⟩), 7) ∧
    minimax_move (fun _ => false) gC2 =
      some (((9996 : Int), some ⟨⟨4, 4⟩, ⟨4, 4⟩⟩), 7) ∧
    alpha_beta 1 gC2 MIN_HEURISTIC_SCORE MAX_HEURISTIC_SCORE true =
      ((9996 : Int), some ⟨⟨0, 0⟩, ⟨0, 0⟩⟩) ∧
    minimax 1 gC2 true = ((9996 : Int), some ⟨⟨0, 0⟩, ⟨0, 0⟩⟩) ∧
    some (⟨⟨4, 4⟩, ⟨4, 4⟩⟩ : CoordPair) ≠ some (⟨⟨0, 0⟩, ⟨0, 0⟩⟩ : CoordPair) :=
  ⟨by decide, by decide, by decide, by decide, by decide⟩

/-- C2 (amended): for every time-out oracle under which the depth-1
iteration completes, `alpha_beta_move` and `minimax_move` each return
the pair produced by the deepest depth iteration `D` that ran to
completion — a depth during which the flag was raised is discarded and
the completed depths are exactly `1..D` — as computed by the
shared-object search `alpha_beta_s` / `minimax_s`, which models the
generator yielding its un-cloned self-destruct `CoordPair`.  The
returned score equals the pure bounded-depth search at depth `D`, but
the action is read through the shared mutable object and can differ
from the pure search's best move (see the counterexample). -/
theorem iterative_deepening_deepest_completed_amended (or : Nat → Bool) (g : Game)
    (hd : 1 ≤ g.options.max_depth)
    (h1ab : (abT or 1 g MIN_HEURISTIC_SCORE MAX_HEURISTIC_SCORE
      (decide (g.next_player = .Attacker)) 0).2.2 = false)
    (h1mm : (mmT or 1 g (decide (g.next_player = .Attacker)) 0).2.2 = false) :
    (∃ D t, 1 ≤ D ∧ D ≤ g.options.max_depth ∧
      (completedRuns (fun d t => abT or d g MIN_HEURISTIC_SCORE MAX_HEURISTIC_SCORE
          (decide (g.next_player = .Attacker)) t)
        (List.range' 1 g.options.max_depth) 0).map Prod.fst = List.range' 1 D ∧
      alpha_beta_move or g =
        some (alpha_beta_s D g MIN_HEURISTIC_SCORE MAX_HEURISTIC_SCORE
          (decide (g.next_player = .Attacker)), t) ∧
      (alpha_beta_s D g MIN_HEURISTIC_SCORE MAX_HEURISTIC_SCORE
          (decide (g.next_player = .Attacker))).1 =
        (alpha_beta D g MIN_HEURISTIC_SCORE MAX_HEURISTIC_SCORE
          (decide (g.next_player = .Attacker))).1) ∧
    (∃ D t, 1 ≤ D ∧ D ≤ g.options.max_depth ∧
      (completedRuns (fun d t => mmT or d g (decide (g.next_player = .Attacker)) t)
        (List.range' 1 g.options.max_depth) 0).map Prod.fst = List.range' 1 D ∧
      minimax_move or g =
        some (minimax_s D g (decide (g.next_player = .Attacker)), t) ∧
      (minimax_s D g (decide (g.next_player = .Attacker))).1 =
        (minimax D g (decide (g.next_player = .Attacker))).1) := by
  constructor
  · obtain ⟨D, t, h1, h2, h3, h4⟩ :=
      moveLoop_deepest
        (fun d t => abT or d g MIN_HEURISTIC_SCORE MAX_HEURISTIC_SCORE
          (decide (g.next_player = .Attacker)) t)
        (fun d => alpha_beta_s d g MIN_HEURISTIC_SCORE MAX_HEURISTIC_SCORE
          (decide (g.next_player = .Attacker)))
        (fun d t h => abT_no_timeout or d g _ _ _ t h)
        g.options.max_depth hd h1ab
    exact ⟨D, t, h1, h2, h3, h4, alpha_beta_s_score D g _ _ _⟩
  · obtain ⟨D, t, h1, h2, h3, h4⟩ :=
      moveLoop_deepest
        (fun d t => mmT or d g (decide (g.next_player = .Attacker)) t)
        (fun d => minimax_s d g (decide (g.next_player = .Attacker)))
        (fun d t h => mmT_no_timeout or d g _ t h)
        g.options.max_depth hd h1mm
    exact ⟨D, t, h1, h2, h3, h4, minimax_s_score D g _⟩

theorem iterative_deepening_deepest_completed_amended_witness :
    (1 ≤ gC2.options.max_depth ∧
     (abT (fun _ => false) 1 gC2 MIN_HEURISTIC_SCORE MAX_HEURISTIC_SCORE
       (decide (gC2.next_player = .Attacker)) 0).2.2 = false ∧
     (mmT (fun _ => false) 1 gC2
       (decide (gC2.next_player = .Attacker)) 0).2.2 = false) ∧
    (∃ D t, 1 ≤ D ∧ D ≤ gC2.options.max_depth ∧
      (completedRuns (fun d t => abT (fun _ => false) d gC2 MIN_HEURISTIC_SCORE
          MAX_HEURISTIC_SCORE (decide (gC2.next_player = .Attacker)) t)
        (List.range' 1 gC2.options.max_depth) 0).map Prod.fst = List.range' 1 D ∧
      alpha_beta_move (fun _ => false) gC2 =
        some (alpha_beta_s D gC2 MIN_HEURISTIC_SCORE MAX_HEURISTIC_SCORE
          (decide (gC2.next_player = .Attacker)), t) ∧
      (alpha_beta_s D gC2 MIN_HEURISTIC_SCORE MAX_HEURISTIC_SCORE
          (decide (gC2.next_player = .Attacker))).1 =
        (alpha_beta D gC2 MIN_HEURISTIC_SCORE MAX_HEURISTIC_SCORE
          (decide (gC2.next_player = .Attacker))).1) ∧
    (∃ D t, 1 ≤ D ∧ D ≤ gC2.options.max_depth ∧
      (completedRuns (fun d t => mmT (fun _ => false) d gC2
          (decide (gC2.next_player = .Attacker)) t)
        (List.range' 1 gC2.options.max_depth) 0).map Prod.fst = List.range' 1 D ∧
      minimax_move (fun _ => false) gC2 =
        some (minimax_s D gC2 (decide (gC2.next_player = .Attacker)), t) ∧
      (minimax_s D gC2 (decide (gC2.next_player = .Attacker))).1 =
        (minimax D gC2 (decide (gC2.next_player = .Attacker))).1) := by
  have hmain := iterative_deepening_deepest_completed_amended (fun _ => false) gC2
    (by decide) (by decide) (by decide)
  exact ⟨⟨by decide, by decide, by decide⟩, hmain.1, hmain.2⟩

theorem abT_timeout_at (or : Nat → Bool) (d : Nat) (g : Game) (a b : Int)
    (maxF : Bool) (t : Nat) (h : or t = true) :
    abT or d g a b maxF t = ((0, none), t + 1, true) := by
  cases d <;> simp [abT, h]

theorem mmT_timeout_at (or : Nat → Bool) (d : Nat) (g : Game)
    (maxF : Bool) (t : Nat) (h : or t = true) :
    mmT or d g maxF t = ((0, none), t + 1, true) := by
  cases d <;> simp [mmT, h]

/-- C10: when the very first elapsed-time check of the depth-1
iteration already reports the budget exhausted, both `alpha_beta_move`
and `minimax_move` reach their final `return (best_score, best_move)`
with the best pair never assigned — the embedding's error branch
(`none`) is reached, so `suggest_move` does not return a move but fails
with an unbound-variable error. -/
theorem timeout_before_depth_one_errors (or : Nat → Bool) (g : Game)
    (h0 : or 0 = true) :
    alpha_beta_move or g = none ∧ minimax_move or g = none := by
  unfold alpha_beta_move minimax_move
  rcases hmd : g.options.max_depth with _ | m
  · exact ⟨rfl, rfl⟩
  · constructor
    · rw [List.range'_succ]
      simp only [moveLoop]
      rw [abT_timeout_at or 1 g _ _ _ 0 h0]
      simp
    · rw [List.range'_succ]
      simp only [moveLoop]
      rw [mmT_timeout_at or 1 g _ 0 h0]
      simp

/-- Witness for C10 with the always-expired oracle on the initial state. -/
theorem timeout_before_depth_one_errors_witness :
    ((fun _ : Nat => true) 0 = true) ∧
    (alpha_beta_move (fun _ => true) initial_game = none ∧
      minimax_move (fun _ => true) initial_game = none) :=
  ⟨rfl, timeout_before_depth_one_errors (fun _ => true) initial_game rfl⟩

/-- Base value of a unit in `e2`: 3/9/99999 × health by tier. -/
def e2_base (u : Unit) : Int :=
  match u.type with
  | .Firewall | .Program => 3 * u.health
  | .Virus | .Tech => 9 * u.health
  | .AI => 99999 * u.health

/-- Danger penalty of a unit in `e2`: 2/5/9999 × health by tier. -/
def e2_danger (u : Unit) : Int :=
  match u.type with
  | .Firewall | .Program => 2 * u.health
  | .Virus | .Tech => 5 * u.health
  | .AI => 9999 * u.health

/-- Repair-potential bonus of a unit in `e2`: 2/5/9999 × repairable
amount by tier. -/
def e2_repair_bonus (u : Unit) (repair : Int) : Int :=
  match u.type with
  | .Firewall | .Program => 2 * repair
  | .Virus | .Tech => 5 * repair
  | .AI => 9999 * repair

/-- Contribution of one neighbourhood cell to a unit's `e2` score, with
threat/friendliness read the way the source reads it: by comparing the
adjacent unit's owner with `next_player`. -/
def e2_cell_next (g : Game) (u : Unit) (ca : Coord) : Int :=
  match g.get ca with
  | none => 0
  | some ua =>
    if ua.player ≠ g.next_player then
      if ua.damage_amount u ≥ u.health then -(e2_danger u) else 0
    else
      (if u.type = .AI then 999 else 0) +
      (if ua.repair_amount u > 0 ∧ u.health < 9 then
        e2_repair_bonus u (ua.repair_amount u) else 0)

/-- Contribution of one neighbourhood cell to a unit's `e2` score, with
threat/friendliness determined by the unit owners, as claim C7 states
it: a cell is hostile exactly when its unit's owner opposes the scored
unit's owner, independent of which player is next to move. -/
def e2_cell_owner (g : Game) (u : Unit) (ca : Coord) : Int :=
  match g.get ca with
  | none => 0
  | some ua =>
    if ua.player ≠ u.player then
      if ua.damage_amount u ≥ u.health then -(e2_danger u) else 0
    else
      (if u.type = .AI then 999 else 0) +
      (if ua.repair_amount u > 0 ∧ u.health < 9 then
        e2_repair_bonus u (ua.repair_amount u) else 0)

/-- Per-player `e2` score written as a sum over the player's units of
the unit's base value plus the cell contributions over its Chebyshev-1
neighbourhood. -/
def e2_player_spec (cell : Game → Unit → Coord → Int) (g : Game) (p : Player) : Int :=
  ((g.player_units p).map (fun cu =>
    e2_base cu.2 + ((cu.1.iter_range 1).map (cell g cu.2)).sum)).sum

/-- The reading of `e2` asserted by claim C7 (owner-based threat
detection). -/
def e2_claim (g : Game) : Int :=
  e2_player_spec e2_cell_owner g .Attacker - e2_player_spec e2_cell_owner g .Defender

/-- The amended reading of `e2` (next_player-based threat detection, as
the source computes it). -/
def e2_amended (g : Game) : Int :=
  e2_player_spec e2_cell_next g .Attacker - e2_player_spec e2_cell_next g .Defender

/-- A two-unit defender board (a Tech at (0,0) next to the defender AI
at (0,1)) with the Attacker to move: the source treats the friendly AI
as a threat to the Tech. -/
def gC7 : Game :=
  { board := [[some ⟨.Defender, .Tech, 3⟩, some ⟨.Defender, .AI, 9⟩], [none, none]]
    next_player := .Attacker
    turns_played := 0
    options := { dim := 2, max_depth := 4, max_turns := some 100, heuristic := 2 }
    attacker_has_ai := true
    defender_has_ai := true }

/-- Counterexample to C7 as stated: on `gC7`, `e2` differs from the
owner-based reading — the source compares adjacent owners against
`next_player`, so the Defender's own AI is scored as a danger to the
adjacent Defender Tech while the Attacker is to move. -/
theorem e2_owner_based_counterexample :
    e2 gC7 ≠ e2_claim gC7 ∧ helper_e2 gC7 .Defender ≠ e2_player_spec e2_cell_owner gC7 .Defender := by
  constructor <;> decide

theorem foldl_add_eq {α : Type} (step : Int → α → Int) (tf : α → Int)
    (h : ∀ s x, step s x = s + tf x) :
    ∀ (l : List α) (s : Int), l.foldl step s = s + (l.map tf).sum := by
  intro l
  induction l with
  | nil => intro s; simp
  | cons x rest ih =>
    intro s
    rw [List.foldl_cons, h, List.map_cons, List.sum_cons, ih]
    ring

/-- C7 amended: `e2` charges the danger penalty and grants the
screening/repair bonuses by comparing each neighbourhood cell's owner
with `next_player` (not with the scored unit's owner), for both helper
invocations alike, over the Chebyshev-1 neighbourhood including the
unit's own cell. -/
theorem e2_next_player_characterization :
    (∀ (g : Game) (p : Player), helper_e2 g p = e2_player_spec e2_cell_next g p) ∧
    (∀ g : Game, e2 g = e2_amended g) := by
  have hhelper : ∀ (g : Game) (p : Player),
      helper_e2 g p = e2_player_spec e2_cell_next g p := by
    intro g p
    unfold helper_e2 e2_player_spec
    rw [foldl_add_eq _ (fun cu => e2_base cu.2 + ((cu.1.iter_range 1).map (e2_cell_next g cu.2)).sum) ?_ _ 0]
    · rw [zero_add]
    · intro s cu
      dsimp only
      have hbase : (match cu.2.type with
          | UnitType.Firewall => 3 * cu.2.health
          | UnitType.Program => 3 * cu.2.health
          | UnitType.Virus => 9 * cu.2.health
          | UnitType.Tech => 9 * cu.2.health
          | UnitType.AI => 99999 * cu.2.health) = e2_base cu.2 := by
        rcases hty : cu.2.type <;> simp [e2_base, hty]
      rw [hbase]
      rw [foldl_add_eq _ (e2_cell_next g cu.2) ?_ _ (s + e2_base cu.2)]
      · ring
      · intro s' ca
        simp only [e2_cell_next]
        rcases hga : g.get ca with _ | ua
        · simp [hga]
        · simp only [hga]
          split_ifs <;>
            (rcases hty : cu.2.type <;>
              simp_all [e2_danger, e2_repair_bonus] <;> ring)
  refine ⟨hhelper, fun g => ?_⟩
  unfold e2 e2_amended
  rw [hhelper, hhelper]

/-- Maximizing `alpha_beta` loop instrumented for the branching
statistic: `bf` is the source's `branch_factor` counter (initialized to
0 before the loop, incremented at the top of each iteration); the
update lists of the children are accumulated in order.  Entries are
(from-maximizing-branch, recorded argument, successors iterated). -/
def abUGoMax (f : Game → Int → Int → Option ((Int × Option CoordPair) × List (Bool × Int × Int))) :
    List (Game × CoordPair) → Int × Option CoordPair → Int → Int → Int →
      List (Bool × Int × Int) →
      Option ((Int × Option CoordPair) × Int × List (Bool × Int × Int))
  | [], vm, _, _, bf, us => some (vm, bf, us)
  | (c, mv) :: rest, vm, a, b, bf, us =>
    let bf1 := bf + 1
    match f c a b with
    | none => none
    | some (rp, cus) =>
      let vm' := if rp.1 > vm.1 then (rp.1, some mv) else vm
      let a' := if vm'.1 > a then vm'.1 else a
      if b ≤ a' then some (vm', bf1, us ++ cus)
      else abUGoMax f rest vm' a' b bf1 (us ++ cus)

/-- Minimizing `alpha_beta` loop instrumented for the branching
statistic.  Faithful to the source, `branch_factor` is ASSIGNED 0 at
the top of each iteration (never incremented), and is unbound (`none`)
when the loop body never ran. -/
def abUGoMin (f : Game → Int → Int → Option ((Int × Option CoordPair) × List (Bool × Int × Int))) :
    List (Game × CoordPair) → Int × Option CoordPair → Int → Int → Option Int → Int →
      List (Bool × Int × Int) →
      Option ((Int × Option CoordPair) × Option Int × Int × List (Bool × Int × Int))
  | [], vm, _, _, bfo, n, us => some (vm, bfo, n, us)
  | (c, mv) :: rest, vm, a, b, _, n, us =>
    match f c a b with
    | none => none
    | some (rp, cus) =>
      let vm' := if rp.1 < vm.1 then (rp.1, some mv) else vm
      let b' := if vm'.1 < b then vm'.1 else b
      if b' ≤ a then some (vm', some 0, n + 1, us ++ cus)
      else abUGoMin f rest vm' a b' (some 0) (n + 1) (us ++ cus)

/-- `Game.alpha_beta` instrumented with the `update_average_branching`
call trace (no time-outs: the claim concerns successor loops that run
to completion).  Each completed branching node appends one entry; a
cutoff leaf appends none.  `none` models the `NameError` raised by the
minimizing branch when it has no successors, `branch_factor` being
unbound at the update call. -/
def abU : Nat → Game → Int → Int → Bool →
    Option ((Int × Option CoordPair) × List (Bool × Int × Int))
  | 0, g, _, _, _ => some ((e g, none), [])
  | d + 1, g, a, b, maximizingPlayer =>
    if g.is_finished then some ((e g, none), [])
    else if maximizingPlayer then
      match abUGoMax (fun c a' b' => abU d c a' b' false) g.get_children
          (MIN_HEURISTIC_SCORE, none) a b 0 [] with
      | none => none
      | some (vm, bf, us) => some (vm, us ++ [(true, bf, bf)])
    else
      match abUGoMin (fun c a' b' => abU d c a' b' true) g.get_children
          (MAX_HEURISTIC_SCORE, none) a b none 0 [] with
      | none => none
      | some (vm, bfo, n, us) =>
        match bfo with
        | none => none
        | some k => some (vm, us ++ [(false, k, n)])

/-- Maximizing `minimax` loop instrumented for the branching statistic
(`branch_factor` initialized before the loop and incremented per
iteration, as in the source). -/
def mmUGoMax (f : Game → (Int × Option CoordPair) × List (Bool × Int × Int)) :
    List (Game × CoordPair) → Int × Option CoordPair → Int → List (Bool × Int × Int) →
      (Int × Option CoordPair) × Int × List (Bool × Int × Int)
  | [], vm, bf, us => (vm, bf, us)
  | (c, mv) :: rest, vm, bf, us =>
    let r := f c
    mmUGoMax f rest (if r.1.1 > vm.1 then (r.1.1, some mv) else vm) (bf + 1) (us ++ r.2)

/-- Minimizing `minimax` loop instrumented for the branching statistic. -/
def mmUGoMin (f : Game → (Int × Option CoordPair) × List (Bool × Int × Int)) :
    List (Game × CoordPair) → Int × Option CoordPair → Int → List (Bool × Int × Int) →
      (Int × Option CoordPair) × Int × List (Bool × Int × Int)
  | [], vm, bf, us => (vm, bf, us)
  | (c, mv) :: rest, vm, bf, us =>
    let r := f c
    mmUGoMin f rest (if r.1.1 < vm.1 then (r.1.1, some mv) else vm) (bf + 1) (us ++ r.2)

/-- `Game.minimax` instrumented with the `update_average_branching`
call trace (no time-outs); both branches initialize `branch_factor`
before the loop and count one per iterated successor. -/
def mmU : Nat → Game → Bool → (Int × Option CoordPair) × List (Bool × Int × Int)
  | 0, g, _ => ((e g, none), [])
  | d + 1, g, maximizing_player =>
    if g.is_finished then ((e g, none), [])
    else if maximizing_player then
      match mmUGoMax (fun c => mmU d c false) g.get_children
          (MIN_HEURISTIC_SCORE, none) 0 [] with
      | (vm, bf, us) => (vm, us ++ [(true, bf, bf)])
    else
      match mmUGoMin (fun c => mmU d c true) g.get_children
          (MAX_HEURISTIC_SCORE, none) 0 [] with
      | (vm, bf, us) => (vm, us ++ [(false, bf, bf)])

/-- Counterexample to C8 as stated: on the initial state the depth-1
minimizing `alpha_beta` node iterates all 12 successors yet records a
branch factor of 0 — the counter is reset inside the loop body — so
the recorded argument differs from the number of successors iterated. -/
theorem branching_update_counterexample :
    (abU 1 initial_game MIN_HEURISTIC_SCORE MAX_HEURISTIC_SCORE false).map
        (fun x => x.2) = some [(false, 0, 12)] ∧
      ¬((0 : Int) = (12 : Int)) := by
  constructor <;> decide

theorem abUGoMax_entries (f : Game → Int → Int → Option ((Int × Option CoordPair) × List (Bool × Int × Int)))
    (hf : ∀ c a' b' r us, f c a' b' = some (r, us) →
      ∀ u ∈ us, u.2.1 = if u.1 then u.2.2 else 0) :
    ∀ (l : List (Game × CoordPair)) (vm : Int × Option CoordPair) (a b bf : Int)
      (us0 : List (Bool × Int × Int)),
      (∀ u ∈ us0, u.2.1 = if u.1 then u.2.2 else 0) →
      ∀ vm' bf' us', abUGoMax f l vm a b bf us0 = some (vm', bf', us') →
      ∀ u ∈ us', u.2.1 = if u.1 then u.2.2 else 0 := by
  intro l
  induction l with
  | nil =>
    intro vm a b bf us0 h0 vm' bf' us' heq u hu
    simp only [abUGoMax] at heq
    injection heq with heq
    injection heq with _ heq
    injection heq with _ heq
    subst heq
    exact h0 u hu
  | cons p rest ih =>
    intro vm a b bf us0 h0 vm' bf' us' heq u hu
    rcases p with ⟨c, mv⟩
    simp only [abUGoMax] at heq
    rcases hc : f c a b with _ | ⟨rp, cus⟩
    · rw [hc] at heq
      simp at heq
    · rw [hc] at heq
      have hall : ∀ u ∈ us0 ++ cus, u.2.1 = if u.1 then u.2.2 else 0 := by
        intro x hx
        rcases List.mem_append.mp hx with h | h
        · exact h0 x h
        · exact hf c a b rp cus hc x h
      simp only at heq
      generalize (if rp.1 > vm.1 then (rp.1, some mv) else vm) = vmX at heq
      generalize (if vmX.1 > a then vmX.1 else a) = aX at heq
      split at heq
      · injection heq with heq
        injection heq with _ heq
        injection heq with _ heq
        subst heq
        exact hall u hu
      · exact ih _ _ _ _ _ hall _ _ _ heq u hu

theorem abUGoMin_entries (f : Game → Int → Int → Option ((Int × Option CoordPair) × List (Bool × Int × Int)))
    (hf : ∀ c a' b' r us, f c a' b' = some (r, us) →
      ∀ u ∈ us, u.2.1 = if u.1 then u.2.2 else 0) :
    ∀ (l : List (Game × CoordPair)) (vm : Int × Option CoordPair) (a b : Int)
      (bfo : Option Int) (n : Int) (us0 : List (Bool × Int × Int)),
      (∀ u ∈ us0, u.2.1 = if u.1 then u.2.2 else 0) →
      (∀ k, bfo = some k → k = 0) →
      ∀ vm' bfo' n' us', abUGoMin f l vm a b bfo n us0 = some (vm', bfo', n', us') →
      ((∀ u ∈ us', u.2.1 = if u.1 then u.2.2 else 0) ∧ (∀ k, bfo' = some k → k = 0)) := by
  intro l
  induction l with
  | nil =>
    intro vm a b bfo n us0 h0 hb vm' bfo' n' us' heq
    simp only [abUGoMin] at heq
    injection heq with heq
    injection heq with _ heq
    injection heq with hbf heq
    injection heq with _ heq
    subst heq
    subst hbf
    exact ⟨h0, hb⟩
  | cons p rest ih =>
    intro vm a b bfo n us0 h0 hb vm' bfo' n' us' heq
    rcases p with ⟨c, mv⟩
    simp only [abUGoMin] at heq
    rcases hc : f c a b with _ | ⟨rp, cus⟩
    · rw [hc] at heq
      simp at heq
    · rw [hc] at heq
      have hall : ∀ u ∈ us0 ++ cus, u.2.1 = if u.1 then u.2.2 else 0 := by
        intro x hx
        rcases List.mem_append.mp hx with h | h
        · exact h0 x h
        · exact hf c a b rp cus hc x h
      simp only at heq
      generalize (if rp.1 < vm.1 then (rp.1, some mv) else vm) = vmX at heq
      generalize (if vmX.1 < b then vmX.1 else b) = bX at heq
      split at heq
      · injection heq with heq
        injection heq with _ heq
        injection heq with hbf heq
        injection heq with _ heq
        subst heq
        subst hbf
        refine ⟨hall, ?_⟩
        intro k hk
        injection hk with hk
        omega
      · exact ih _ _ _ _ _ _ hall (by intro k hk; injection hk with hk; omega)
          _ _ _ _ heq

theorem mmUGoMax_entries (f : Game → (Int × Option CoordPair) × List (Bool × Int × Int))
    (hf : ∀ c, ∀ u ∈ (f c).2, u.2.1 = u.2.2) :
    ∀ (l : List (Game × CoordPair)) (vm : Int × Option CoordPair) (bf : Int)
      (us0 : List (Bool × Int × Int)), (∀ u ∈ us0, u.2.1 = u.2.2) →
      ∀ u ∈ (mmUGoMax f l vm bf us0).2.2, u.2.1 = u.2.2 := by
  intro l
  induction l with
  | nil => intro vm bf us0 h0 u hu; exact h0 u hu
  | cons p rest ih =>
    intro vm bf us0 h0 u hu
    rcases p with ⟨c, mv⟩
    refine ih _ _ _ ?_ u hu
    intro x hx
    rcases List.mem_append.mp hx with h | h
    · exact h0 x h
    · exact hf c x h

theorem mmUGoMin_entries (f : Game → (Int × Option CoordPair) × List (Bool × Int × Int))
    (hf : ∀ c, ∀ u ∈ (f c).2, u.2.1 = u.2.2) :
    ∀ (l : List (Game × CoordPair)) (vm : Int × Option CoordPair) (bf : Int)
      (us0 : List (Bool × Int × Int)), (∀ u ∈ us0, u.2.1 = u.2.2) →
      ∀ u ∈ (mmUGoMin f l vm bf us0).2.2, u.2.1 = u.2.2 := by
  intro l
  induction l with
  | nil => intro vm bf us0 h0 u hu; exact h0 u hu
  | cons p rest ih =>
    intro vm bf us0 h0 u hu
    rcases p with ⟨c, mv⟩
    refine ih _ _ _ ?_ u hu
    intro x hx
    rcases List.mem_append.mp hx with h | h
    · exact h0 x h
    · exact hf c x h

/-- C8 amended: in `minimax`, every branching-statistic update records
exactly the number of successors iterated at its node, in the
maximizing and minimizing branch alike; in `alpha_beta` only the
maximizing branch does — the minimizing branch resets its counter per
child, so every update it records is 0 regardless of the successors
iterated (and with no successor at all the counter is unbound and the
update call raises).  Cutoff leaves never update. -/
theorem branching_update_accounting :
    (∀ (d : Nat) (g : Game) (a b : Int) (maxF : Bool) (r : Int × Option CoordPair)
        (us : List (Bool × Int × Int)), abU d g a b maxF = some (r, us) →
      ∀ u ∈ us, u.2.1 = if u.1 then u.2.2 else 0) ∧
    (∀ (d : Nat) (g : Game) (maxF : Bool),
      ∀ u ∈ (mmU d g maxF).2, u.2.1 = u.2.2) := by
  constructor
  · intro d
    induction d with
    | zero =>
      intro g a b maxF r us heq u hu
      simp only [abU] at heq
      injection heq with heq
      injection heq with _ heq
      subst heq
      simp at hu
    | succ d ih =>
      intro g a b maxF r us heq u hu
      simp only [abU] at heq
      split at heq
      · injection heq with heq
        injection heq with _ heq
        subst heq
        simp at hu
      · split at heq
        · rcases hm : abUGoMax (fun c a' b' => abU d c a' b' false) g.get_children
              (MIN_HEURISTIC_SCORE, none) a b 0 [] with _ | ⟨vm1, bf1, us1⟩
          · rw [hm] at heq
            simp at heq
          · rw [hm] at heq
            simp only at heq
            injection heq with heq
            injection heq with _ heq
            subst heq
            rcases List.mem_append.mp hu with h | h
            · exact abUGoMax_entries _ (fun c a' b' r' us' hcc => ih c a' b' false r' us' hcc)
                g.get_children _ a b 0 [] (by simp) _ _ _ hm u h
            · rcases List.mem_singleton.mp h with rfl
              simp
        · rcases hm : abUGoMin (fun c a' b' => abU d c a' b' true) g.get_children
              (MAX_HEURISTIC_SCORE, none) a b none 0 [] with _ | ⟨vm1, bfo1, n1, us1⟩
          · rw [hm] at heq
            simp at heq
          · rw [hm] at heq
            have hmm := abUGoMin_entries _ (fun c a' b' r' us' hcc => ih c a' b' true r' us' hcc)
              g.get_children _ a b none 0 [] (by simp) (by simp) _ _ _ _ hm
            rcases bfo1 with _ | k
            · simp at heq
            · simp only at heq
              injection heq with heq
              injection heq with _ heq
              subst heq
              rcases List.mem_append.mp hu with h | h
              · exact hmm.1 u h
              · rcases List.mem_singleton.mp h with rfl
                have hk : k = 0 := hmm.2 k rfl
                simp [hk]
  · intro d
    induction d with
    | zero =>
      intro g maxF u hu
      simp [mmU] at hu
    | succ d ih =>
      intro g maxF u hu
      simp only [mmU] at hu
      split at hu
      · simp at hu
      · split at hu
        · rcases List.mem_append.mp hu with h | h
          · exact mmUGoMax_entries _ (fun c => ih c false) g.get_children _ 0 [] (by simp) u h
          · rcases List.mem_singleton.mp h with rfl
            rfl
        · rcases List.mem_append.mp hu with h | h
          · exact mmUGoMin_entries _ (fun c => ih c true) g.get_children _ 0 [] (by simp) u h
          · rcases List.mem_singleton.mp h with rfl
            rfl

/-- Witness for C8's amended accounting at the depth-1 minimizing
`alpha_beta` node of the initial state. -/
theorem branching_update_accounting_witness :
    (abU 1 initial_game MIN_HEURISTIC_SCORE MAX_HEURISTIC_SCORE false =
      some ((-9999, some ⟨⟨4, 4⟩, ⟨4, 4⟩⟩), [(false, 0, 12)])) ∧
    (∀ u ∈ [((false : Bool), (0 : Int), (12 : Int))],
      u.2.1 = if u.1 then u.2.2 else 0) :=
  ⟨by decide,
    (branching_update_accounting).1 1 initial_game MIN_HEURISTIC_SCORE
      MAX_HEURISTIC_SCORE false ((-9999 : Int), some ⟨⟨4, 4⟩, ⟨4, 4⟩⟩)
      [(false, 0, 12)] (by decide)⟩

end AiWargame
